import Mathlib

/-!
# ledEvenOrOdd.c : tree-driven even/odd LED blinker

A shallow embedding of `src/ledEvenOrOdd.c`.

* The C heap of `TreeNode` objects is an explicit `Memory`: a map from addresses to
  objects together with a bump allocator that can run dry (`malloc` returning `NULL`).
  Pointers are `Option Nat`, `none` being `NULL`.
* `int` values (`led_index`, the loop counter `i`, `state`) are `Int`.  The counter only
  runs from `1` up to `LED_COUNT`, itself an `int`, so `i++` never overflows.  `%` is C's
  truncating remainder, `Int.tmod`.
* Colours (`uint32_t`, `ws2811_led_t`) are `Nat`; the program only copies them.
* `ledstring.channel[0].leds` is a `List Nat`; a store outside of it is a `Fault`.
* Recursion through pointers is bounded by a fuel argument; running out of it is reported
  as `Fault.outOfFuel`, which is an artefact of the embedding and not a C behaviour.
-/

namespace LedEvenOrOdd

/-! ## Data model -/

/-- Reasons for which a run leaves the defined behaviour of C, plus fuel exhaustion. -/
inductive Fault where
  /-- A load or store through the `NULL` pointer. -/
  | nullDeref
  /-- A load or store through a pointer to no live `TreeNode`. -/
  | invalidPointer
  /-- The store `leds[i] = c` with `i` outside of the frame buffer. -/
  | outOfBounds
  /-- The recursion budget of the embedding is used up. -/
  | outOfFuel
  deriving DecidableEq, Repr

/-- The C `struct TreeNode` (lines 39-43): an index and two child pointers. -/
structure TreeNode where
  led_index : Int
  left : Option Nat
  right : Option Nat
  deriving DecidableEq, Repr

/-- The heap of `TreeNode` objects: `cell a` is the object living at address `a`, `brk` is
the next address `malloc` hands out and `limit` bounds the addresses it can hand out. -/
structure Memory where
  cell : Nat → Option TreeNode
  brk : Nat
  limit : Nat

/-- The heap at program start: nothing allocated, room for `limit` objects. -/
def Memory.fresh (limit : Nat) : Memory :=
  { cell := fun _ => none, brk := 0, limit := limit }

/-- The frame buffer `ledstring.channel[0].leds`, with a ghost log `writes` of the indices
stored to, oldest first.  The log is never read by the program. -/
structure Frame where
  leds : List Nat
  writes : List Int
  deriving DecidableEq, Repr

/-! ## Memory operations -/

/-- `malloc(sizeof(TreeNode))`: a fresh object with unspecified content, or `NULL` when
storage is exhausted. -/
def malloc (m : Memory) : Option Nat × Memory :=
  if m.brk < m.limit then
    (some m.brk,
      { m with
        cell := fun a => if a = m.brk then some ⟨0, none, none⟩ else m.cell a,
        brk := m.brk + 1 })
  else
    (none, m)

/-- A load `*p` of a whole node. -/
def load (m : Memory) (p : Option Nat) : Except Fault TreeNode :=
  match p with
  | none => .error .nullDeref
  | some a =>
    match m.cell a with
    | none => .error .invalidPointer
    | some nd => .ok nd

/-- A store `p->field = v`, given as the update `upd` of the node `*p`. -/
def store (m : Memory) (p : Option Nat) (upd : TreeNode → TreeNode) : Except Fault Memory :=
  match p with
  | none => .error .nullDeref
  | some a =>
    match m.cell a with
    | none => .error .invalidPointer
    | some nd => .ok { m with cell := fun b => if b = a then some (upd nd) else m.cell b }

/-- The store `ledstring.channel[0].leds[i] = color` (line 73). -/
def writeLed (f : Frame) (i : Int) (color : Nat) : Except Fault Frame :=
  if 0 ≤ i ∧ i < f.leds.length then
    .ok { leds := f.leds.set i.toNat color, writes := f.writes ++ [i] }
  else
    .error .outOfBounds

/-! ## The functions of the program -/

/-- `createNode` (lines 51-58). -/
def createNode (m : Memory) (led_index : Int) : Except Fault (Option Nat × Memory) :=
  let (newNode, m0) := malloc m
  match store m0 newNode (fun nd => { nd with led_index := led_index }) with
  | .error e => .error e
  | .ok m1 =>
    match store m1 newNode (fun nd => { nd with left := none }) with
    | .error e => .error e
    | .ok m2 =>
      match store m2 newNode (fun nd => { nd with right := none }) with
      | .error e => .error e
      | .ok m3 => .ok (newNode, m3)

/-- `traverseTree` (lines 68-77). -/
def traverseTree :
    Nat → Memory → Option Nat → Nat → Nat → Frame → Except Fault Frame
  | _, _, none, _, _, f => .ok f
  | 0, _, some _, _, _, _ => .error .outOfFuel
  | fuel + 1, m, some a, color_on, color_off, f =>
    match load m (some a) with
    | .error e => .error e
    | .ok nd =>
      let color := if nd.led_index.tmod 2 = 0 then color_on else color_off
      match writeLed f nd.led_index color with
      | .error e => .error e
      | .ok f1 =>
        match traverseTree fuel m nd.left color_on color_off f1 with
        | .error e => .error e
        | .ok f2 => traverseTree fuel m nd.right color_on color_off f2

/-- The construction loop of `main` (lines 106-114), entered with counter `i`. -/
def buildLoop : Nat → Int → Int → Option Nat → Memory → Except Fault Memory
  | 0, i, count, _, m => if i < count then .error .outOfFuel else .ok m
  | fuel + 1, i, count, current, m =>
    if i < count then
      match createNode m i with
      | .error e => .error e
      | .ok (p, m1) =>
        if i.tmod 2 ≠ 0 then
          match store m1 current (fun nd => { nd with left := p }) with
          | .error e => .error e
          | .ok m2 =>
            match load m2 current with
            | .error e => .error e
            | .ok nd => buildLoop fuel (i + 1) count nd.left m2
        else
          match store m1 current (fun nd => { nd with right := p }) with
          | .error e => .error e
          | .ok m2 =>
            match load m2 current with
            | .error e => .error e
            | .ok nd => buildLoop fuel (i + 1) count nd.right m2
    else
      .ok m

/-- Tree construction in `main` (lines 102-114) for `LED_COUNT = count`; the result is
the pointer `root` and the heap. -/
def build (count : Int) (m : Memory) : Except Fault (Option Nat × Memory) :=
  match createNode m 0 with
  | .error e => .error e
  | .ok (root, m1) =>
    match buildLoop count.toNat 1 count root m1 with
    | .error e => .error e
    | .ok m2 => .ok (root, m2)

/-- C's logical negation `!state` on an `int`. -/
def lnot (state : Int) : Int := if state = 0 then 1 else 0

/-- One iteration of the `while (1)` loop (lines 119-127).  `ws2811_render` and `usleep`
change neither `state` nor the frame buffer. -/
def tick (fuel : Nat) (m : Memory) (root : Option Nat) (state : Int) (f : Frame) :
    Except Fault (Int × Frame) :=
  let state := lnot state
  let evenColor : Nat := if state = 1 then 0x00ff00 else 0x000000
  let oddColor : Nat := if state = 1 then 0x000000 else 0xff0000
  match traverseTree fuel m root evenColor oddColor f with
  | .error e => .error e
  | .ok f1 => .ok (state, f1)

/-- The value of `state` once the `while (1)` loop has completed `k` iterations
(`state = 0` at line 116, `state = !state` at line 119). -/
def stateAfter : Nat → Int
  | 0 => 0
  | k + 1 => lnot (stateAfter k)

/-! ## Finite trees in the heap -/

/-- The shape of a finite binary tree of indices. -/
inductive Tree where
  | null
  | node (led_index : Int) (left right : Tree)
  deriving DecidableEq, Repr

/-- Root, then left subtree, then right subtree. -/
def Tree.preorder : Tree → List Int
  | .null => []
  | .node i l r => i :: (l.preorder ++ r.preorder)

/-- Number of nodes on the longest path from the root. -/
def Tree.height : Tree → Nat
  | .null => 0
  | .node _ l r => max l.height r.height + 1

/-- The pointer `p` is the root of the finite tree `t` laid out in `m`. -/
inductive Represents (m : Memory) : Option Nat → Tree → Prop
  | null : Represents m none Tree.null
  | node {a : Nat} {nd : TreeNode} {l r : Tree} :
      m.cell a = some nd → Represents m nd.left l → Represents m nd.right r →
      Represents m (some a) (Tree.node nd.led_index l r)

/-- The colour `traverseTree` gives to index `i`. -/
def colorOf (color_on color_off : Nat) (i : Int) : Nat :=
  if i.tmod 2 = 0 then color_on else color_off

/-- The stores of `traverseTree` issued one after the other for a list of indices. -/
def paint (color_on color_off : Nat) : List Int → Frame → Except Fault Frame
  | [], f => .ok f
  | i :: is, f =>
    match writeLed f i (colorOf color_on color_off i) with
    | .error e => .error e
    | .ok f1 => paint color_on color_off is f1

/-- The single-child chain holding `k` consecutive indices from `i` on: the node of
`j + 1` hangs to the left of the node of `j` when `j + 1` is odd, to the right otherwise. -/
def chain : Nat → Int → Tree
  | 0, _ => .null
  | k + 1, i =>
    if (i + 1).tmod 2 ≠ 0 then .node i (chain k (i + 1)) .null
    else .node i .null (chain k (i + 1))

/-- The node at address `a` in the heap `build` leaves for `LED_COUNT = n`. -/
def chainNode (n a : Nat) : TreeNode :=
  { led_index := a,
    left := if a + 1 < n ∧ (a + 1) % 2 ≠ 0 then some (a + 1) else none,
    right := if a + 1 < n ∧ (a + 1) % 2 = 0 then some (a + 1) else none }


/-- A heap holding a branching tree: index `0` at address `0`, its left child (index `2`)
at address `1` and its right child (index `1`) at address `2`. -/
def forkHeap : Memory :=
  { cell := fun a =>
      if a = 0 then some ⟨0, some 1, some 2⟩
      else if a = 1 then some ⟨2, none, none⟩
      else if a = 2 then some ⟨1, none, none⟩
      else none,
    brk := 3, limit := 3 }

/-- The shape of the tree laid out in `forkHeap`. -/
def forkTree : Tree :=
  .node 0 (.node 2 .null .null) (.node 1 .null .null)

/-! ## Release of the tree -/

/-- `free(p)`: `free(NULL)` does nothing; releasing an address that holds no live object,
as a second `free` of one pointer does, leaves defined behaviour. -/
def free (m : Memory) (p : Option Nat) : Except Fault Memory :=
  match p with
  | none => .ok m
  | some a =>
    match m.cell a with
    | none => .error .invalidPointer
    | some _ => .ok { m with cell := fun b => if b = a then none else m.cell b }

/-- `freeTree` (lines 84-90).  The list is a ghost log of the addresses handed to `free`,
oldest first; `root->right` is read after the left subtree has been released. -/
def freeTree : Nat → Memory → Option Nat → List Nat → Except Fault (Memory × List Nat)
  | _, m, none, freed => .ok (m, freed)
  | 0, _, some _, _ => .error .outOfFuel
  | fuel + 1, m, some a, freed =>
    match load m (some a) with
    | .error e => .error e
    | .ok nd =>
      match freeTree fuel m nd.left freed with
      | .error e => .error e
      | .ok (m1, freed1) =>
        match load m1 (some a) with
        | .error e => .error e
        | .ok nd1 =>
          match freeTree fuel m1 nd1.right freed1 with
          | .error e => .error e
          | .ok (m2, freed2) =>
            match free m2 (some a) with
            | .error e => .error e
            | .ok m3 => .ok (m3, freed2 ++ [a])

/-- The addresses of the nodes of the tree rooted at `p`, every node after the nodes of
its left and of its right subtree. -/
inductive PostOrder (m : Memory) : Option Nat → List Nat → Prop
  | null : PostOrder m none []
  | node {a : Nat} {nd : TreeNode} {ls rs : List Nat} :
      m.cell a = some nd → PostOrder m nd.left ls → PostOrder m nd.right rs →
      PostOrder m (some a) (ls ++ rs ++ [a])

/-! ## The program `main` -/

/-- What `main` works on: the heap, its locals `root` and `state`, the frame buffer, and a
ghost record `rendered` of the frames handed to `ws2811_render`, oldest first. -/
structure Machine where
  mem : Memory
  root : Option Nat
  state : Int
  frame : Frame
  rendered : List (List Nat)

/-- How a run of `main` is observed: it returned `code`, it is still inside `while (1)`
after the observed number of iterations, or it left defined behaviour. -/
inductive Outcome where
  | exited (code : Int) (s : Machine)
  | running (s : Machine)
  | fault (e : Fault)

/-- The body of the `while (1)` loop (lines 119-127): `tick`, with the frame handed to
`ws2811_render` (line 125) put on record. -/
def loopBody (fuel : Nat) (s : Machine) : Except Fault Machine :=
  match tick fuel s.mem s.root s.state s.frame with
  | .error e => .error e
  | .ok (state, f1) =>
    .ok { s with state := state, frame := f1, rendered := s.rendered ++ [f1.leds] }

/-- The statement `freeTree(root)` of `main` (line 131). -/
def releaseTree (fuel : Nat) (s : Machine) : Except Fault Machine :=
  match freeTree fuel s.mem s.root [] with
  | .error e => .error e
  | .ok (m, _) => .ok { s with mem := m }

/-- The code after the loop (lines 131-134): `freeTree(root)`, `ws2811_fini`, `return 0`.
What `ws2811_fini` does to the device is outside of the program. -/
def cleanup (fuel : Nat) (s : Machine) : Outcome :=
  match releaseTree fuel s with
  | .error e => .fault e
  | .ok s1 => .exited 0 s1

/-- The loop `while (1)` (lines 118-128) observed for `ticks` iterations; its condition is
the constant `1`, tested against zero as C does. -/
def renderLoop : Nat → Nat → Machine → Outcome
  | 0, _, s => .running s
  | ticks + 1, fuel, s =>
    if (1 : Int) ≠ 0 then
      match loopBody fuel s with
      | .error e => .fault e
      | .ok s1 => renderLoop ticks fuel s1
    else
      cleanup fuel s

/-- The function `main` (lines 92-135).  `ret` is what `ws2811_init` returns and `leds` the
frame buffer it set up; `WS2811_SUCCESS` comes from the header `ws2811.h`, `count` is
`LED_COUNT` and `cap` the number of nodes the allocator can provide. -/
def main (WS2811_SUCCESS ret count : Int) (cap : Nat) (leds : List Nat) (ticks fuel : Nat) :
    Outcome :=
  let s0 : Machine :=
    { mem := Memory.fresh cap, root := none, state := 0,
      frame := { leds := leds, writes := [] }, rendered := [] }
  if ret ≠ WS2811_SUCCESS then
    .exited ret s0
  else
    match build count s0.mem with
    | .error e => .fault e
    | .ok (root, m) => renderLoop ticks fuel { s0 with mem := m, root := root }

/-! ## Reference behaviour in the words of the specification -/

/-- Follows the specification's words: the plain ordered loop
`for i = 0 .. n-1: leds[i] = (i % 2 == 0 ? color_on : color_off)`. -/
def plainLoop (n color_on color_off : Nat) (leds : List Nat) : List Nat :=
  (List.range n).foldl (fun l i => l.set i (if i % 2 = 0 then color_on else color_off)) leds

/-- The frame of `n` slots holding `color_on` at even and `color_off` at odd indices. -/
def alternating (n color_on color_off : Nat) : List Nat :=
  (List.range n).map (fun i => if i % 2 = 0 then color_on else color_off)

/-- The on-phase frame: green at even indices, black at odd ones. -/
def onFrame (n : Nat) : List Nat := alternating n 0x00ff00 0x000000

/-- The off-phase frame: black at even indices, red at odd ones. -/
def offFrame (n : Nat) : List Nat := alternating n 0x000000 0xff0000

/-! ## Allocation and node creation -/

theorem tmod_two_natCast (a : Nat) : (a : Int).tmod 2 = ((a % 2 : Nat) : Int) :=
  (Int.ofNat_tmod a 2).symm

theorem createNode_of_room (m : Memory) (i : Int) (h : m.brk < m.limit) :
    createNode m i = .ok (some m.brk,
      { cell := fun a => if a = m.brk then some ⟨i, none, none⟩ else m.cell a,
        brk := m.brk + 1, limit := m.limit }) := by
  simp only [createNode, malloc, h, if_true, store]
  congr 3
  funext b
  by_cases hb : b = m.brk <;> simp [hb]

theorem createNode_of_full (m : Memory) (i : Int) (h : ¬ m.brk < m.limit) :
    createNode m i = .error .nullDeref := by
  simp [createNode, malloc, h, store]


/-! ## The construction loop -/

theorem buildLoop_chain (N : Nat) :
    ∀ (fuel i : Nat) (m : Memory), 1 ≤ i → i ≤ N → N - i ≤ fuel → i ≤ m.limit → m.brk = i →
      (∀ a, a < i → m.cell a = some (chainNode i a)) → (∀ a, i ≤ a → m.cell a = none) →
      (N ≤ m.limit →
        ∃ m', buildLoop fuel i N (some (i - 1)) m = .ok m' ∧ m'.brk = N ∧
          m'.limit = m.limit ∧ (∀ a, a < N → m'.cell a = some (chainNode N a)) ∧
          (∀ a, N ≤ a → m'.cell a = none)) ∧
      (m.limit < N → buildLoop fuel i N (some (i - 1)) m = .error .nullDeref) := by
  intro fuel
  induction fuel with
  | zero =>
    intro i m _ hiN hf _ hbrk hlo hhi
    have hi : i = N := by omega
    subst hi
    exact ⟨fun _ => ⟨m, by simp [buildLoop], hbrk, rfl, hlo, hhi⟩, fun h => by omega⟩
  | succ fuel ih =>
    intro i m h1 hiN hf hlim hbrk hlo hhi
    by_cases hlt : i < N
    · have hltZ : (i : Int) < (N : Int) := by exact_mod_cast hlt
      by_cases hroom : m.brk < m.limit
      case neg =>
        refine ⟨fun h => by omega, fun _ => ?_⟩
        simp only [buildLoop, hltZ, if_true, createNode_of_full m i hroom]
      have hc := createNode_of_room m i hroom
      have hprev : m.cell (i - 1) = some (chainNode i (i - 1)) := hlo (i - 1) (by omega)
      have hne : ¬ (i - 1 = i) := by omega
      have hsucc : i + 1 - 1 = i := by omega
      have hpred : i - 1 + 1 = i := by omega
      have hpos : 0 < i := by omega
      by_cases hodd : i % 2 = 1
      · have hcond : (i : Int).tmod 2 ≠ 0 := by
          rw [tmod_two_natCast]; omega
        simp only [buildLoop, hltZ, if_true, hc, hbrk, hcond, ne_eq, not_false_eq_true, store,
          load, hne, if_false, hprev]
        have h := ih (i + 1)
          { cell := fun b =>
              if b = i - 1 then
                some { led_index := (chainNode i (i - 1)).led_index, left := some i,
                       right := (chainNode i (i - 1)).right }
              else if b = i then some { led_index := (i : Int), left := none, right := none }
              else m.cell b,
            brk := i + 1, limit := m.limit }
          (by omega) (by omega) (by omega) (by simp only; omega) rfl
          (by
            intro a ha
            by_cases ha1 : a = i - 1
            · subst ha1
              simp [chainNode, hsucc, hpred, hodd, hpos]
            · by_cases ha2 : a = i
              · subst ha2
                simp [chainNode, ha1]
              · have ha3 : a < i := by omega
                simp only [ha1, ha2, if_false, hlo a ha3]
                simp only [chainNode]
                have e1 : (a + 1 < i) = True := eq_true (by omega)
                have e2 : (a + 1 < i + 1) = True := eq_true (by omega)
                simp only [e1, e2])
          (by
            intro a ha
            have ha1 : ¬ (a = i - 1) := by omega
            have ha2 : ¬ (a = i) := by omega
            simp only [ha1, ha2, if_false]
            exact hhi a (by omega))
        simp only [hsucc, Nat.cast_add, Nat.cast_one] at h
        simpa using h
      · have hcond : ¬ ((i : Int).tmod 2 ≠ 0) := by
          rw [tmod_two_natCast]; omega
        simp only [buildLoop, hltZ, if_true, hc, hbrk, hcond, store,
          load, hne, if_false, hprev]
        have h := ih (i + 1)
          { cell := fun b =>
              if b = i - 1 then
                some { led_index := (chainNode i (i - 1)).led_index,
                       left := (chainNode i (i - 1)).left, right := some i }
              else if b = i then some { led_index := (i : Int), left := none, right := none }
              else m.cell b,
            brk := i + 1, limit := m.limit }
          (by omega) (by omega) (by omega) (by simp only; omega) rfl
          (by
            intro a ha
            by_cases ha1 : a = i - 1
            · subst ha1
              have heven : i % 2 = 0 := by omega
              simp [chainNode, hsucc, hpred, heven, hpos]
            · by_cases ha2 : a = i
              · subst ha2
                simp [chainNode, ha1]
              · have ha3 : a < i := by omega
                simp only [ha1, ha2, if_false, hlo a ha3]
                simp only [chainNode]
                have e1 : (a + 1 < i) = True := eq_true (by omega)
                have e2 : (a + 1 < i + 1) = True := eq_true (by omega)
                simp only [e1, e2])
          (by
            intro a ha
            have ha1 : ¬ (a = i - 1) := by omega
            have ha2 : ¬ (a = i) := by omega
            simp only [ha1, ha2, if_false]
            exact hhi a (by omega))
        simp only [hsucc, Nat.cast_add, Nat.cast_one] at h
        simpa using h
    · have hi : i = N := by omega
      subst hi
      exact ⟨fun _ => ⟨m, by simp [buildLoop], hbrk, rfl, hlo, hhi⟩, fun h => by omega⟩


theorem build_chain (N cap : Nat) (hN : 1 ≤ N) (hcap : N ≤ cap) :
    ∃ m, build N (Memory.fresh cap) = .ok (some 0, m) ∧ m.brk = N ∧ m.limit = cap ∧
      (∀ a, a < N → m.cell a = some (chainNode N a)) ∧ (∀ a, N ≤ a → m.cell a = none) := by
  have hc := createNode_of_room (Memory.fresh cap) 0 (by simp [Memory.fresh]; omega)
  have h := buildLoop_chain N N 1
    { cell := fun a => if a = 0 then some ⟨0, none, none⟩ else none, brk := 1, limit := cap }
    (le_refl 1) hN (by omega) (by simp only; omega) rfl
    (by
      intro a ha
      have ha0 : a = 0 := by omega
      subst ha0
      simp [chainNode])
    (by
      intro a ha
      have ha0 : ¬ (a = 0) := by omega
      simp only [ha0, if_false])
  obtain ⟨m, hm, hbrk, hlimit, hlo, hhi⟩ := h.1 hcap
  refine ⟨m, ?_, hbrk, hlimit, hlo, hhi⟩
  simp only [Nat.cast_one, Nat.sub_self] at hm
  simp only [Memory.fresh, zero_add] at hc
  simp only [build, Memory.fresh, hc, Int.toNat_ofNat, hm]

/-! ## Traversal of a finite tree -/

theorem paint_append (con coff : Nat) (xs ys : List Int) (f : Frame) :
    paint con coff (xs ++ ys) f =
      match paint con coff xs f with
      | .error e => .error e
      | .ok f1 => paint con coff ys f1 := by
  induction xs generalizing f with
  | nil => simp [paint]
  | cons x xs ih =>
    simp only [List.cons_append, paint]
    cases writeLed f x (colorOf con coff x) with
    | error e => rfl
    | ok f1 => exact ih f1

theorem traverseTree_eq_paint (m : Memory) (con coff : Nat) (p : Option Nat) (t : Tree)
    (h : Represents m p t) :
    ∀ (fuel : Nat) (f : Frame), t.height ≤ fuel →
      traverseTree fuel m p con coff f = paint con coff t.preorder f := by
  induction h with
  | null => intro fuel f _; simp [traverseTree, Tree.preorder, paint]
  | @node a nd l r hcell _ _ ihl ihr =>
    intro fuel f hfuel
    cases fuel with
    | zero => simp [Tree.height] at hfuel
    | succ fuel =>
      simp only [Tree.height] at hfuel
      simp only [traverseTree, load, hcell, Tree.preorder, paint, colorOf]
      cases writeLed f nd.led_index (if nd.led_index.tmod 2 = 0 then con else coff) with
      | error e => rfl
      | ok f1 =>
        simp only [paint_append]
        rw [ihl fuel f1 (by omega)]
        cases paint con coff l.preorder f1 with
        | error e => rfl
        | ok f2 => exact ihr fuel f2 (by omega)


/-! ## A run of in-bounds stores -/

theorem writeLed_of_inBounds (f : Frame) (i : Int) (c : Nat) (h0 : 0 ≤ i)
    (h1 : i < f.leds.length) :
    writeLed f i c = .ok { leds := f.leds.set i.toNat c, writes := f.writes ++ [i] } := by
  simp [writeLed, h0, h1]

theorem paint_of_inBounds (con coff : Nat) :
    ∀ (is : List Int) (f : Frame), (∀ i ∈ is, 0 ≤ i ∧ i < f.leds.length) →
      ∃ f', paint con coff is f = .ok f' ∧ f'.leds.length = f.leds.length ∧
        f'.writes = f.writes ++ is ∧
        (∀ j : Nat, (j : Int) ∈ is → f'.leds[j]? = some (colorOf con coff j)) ∧
        (∀ j : Nat, (j : Int) ∉ is → f'.leds[j]? = f.leds[j]?) := by
  intro is
  induction is with
  | nil => intro f _; exact ⟨f, rfl, rfl, by simp, by simp, by simp⟩
  | cons i is ih =>
    intro f hb
    obtain ⟨h0, h1⟩ := hb i (List.mem_cons_self i is)
    have hw := writeLed_of_inBounds f i (colorOf con coff i) h0 h1
    obtain ⟨f', hp, hlen, hwr, hin, hout⟩ :=
      ih { leds := f.leds.set i.toNat (colorOf con coff i), writes := f.writes ++ [i] }
        (by
          intro x hx
          have := hb x (List.mem_cons_of_mem i hx)
          simpa using this)
    refine ⟨f', ?_, ?_, ?_, ?_, ?_⟩
    · simp only [paint, hw, hp]
    · simpa using hlen
    · simpa using hwr
    · intro j hj
      by_cases hjs : (j : Int) ∈ is
      · exact hin j hjs
      · have hji : (j : Int) = i := by
          rcases List.mem_cons.mp hj with h | h
          · exact h
          · exact absurd h hjs
        rw [hout j hjs]
        subst hji
        have hjl : j < f.leds.length := by exact_mod_cast h1
        simp [hjl]
    · intro j hj
      have hji : ¬ ((j : Int) = i) := fun h => hj (h ▸ List.mem_cons_self _ _)
      have hjs : (j : Int) ∉ is := fun h => hj (List.mem_cons_of_mem i h)
      rw [hout j hjs]
      have hne : i.toNat ≠ j := by omega
      simp [List.getElem?_set_ne hne]

/-! ## The chain built by `main` -/

theorem chain_preorder : ∀ (k a : Nat),
    (chain k a).preorder = (List.range' a k).map (fun x : Nat => (x : Int)) := by
  intro k
  induction k with
  | zero => intro a; simp [chain, Tree.preorder]
  | succ k ih =>
    intro a
    have h := ih (a + 1)
    simp only [Nat.cast_add, Nat.cast_one] at h
    by_cases hodd : ((a : Int) + 1).tmod 2 ≠ 0
    · simp [chain, hodd, Tree.preorder, h, List.range'_succ]
    · simp [chain, hodd, Tree.preorder, h, List.range'_succ]

theorem chain_height : ∀ (k : Nat) (i : Int), (chain k i).height = k := by
  intro k
  induction k with
  | zero => intro i; simp [chain, Tree.height]
  | succ k ih =>
    intro i
    by_cases hodd : (i + 1).tmod 2 ≠ 0
    · simp [chain, hodd, Tree.height, ih]
    · simp [chain, hodd, Tree.height, ih]

theorem represents_chain (m : Memory) (N : Nat)
    (hm : ∀ a, a < N → m.cell a = some (chainNode N a)) :
    ∀ (k a : Nat), a + k = N →
      Represents m (if k = 0 then none else some a) (chain k a) := by
  intro k
  induction k with
  | zero => intro a _; exact Represents.null
  | succ k ih =>
    intro a hak
    have hcell := hm a (by omega)
    have hnext := ih (a + 1) (by omega)
    simp only [Nat.cast_add, Nat.cast_one] at hnext
    simp only [Nat.succ_ne_zero, if_false]
    by_cases hodd : (a + 1) % 2 = 1
    · have hcond : ((a : Int) + 1).tmod 2 ≠ 0 := by
        have := tmod_two_natCast (a + 1)
        simp only [Nat.cast_add, Nat.cast_one] at this
        rw [this]; omega
      have hl : (chainNode N a).left = if k = 0 then none else some (a + 1) := by
        by_cases hk0 : k = 0
        · have : ¬ (a + 1 < N) := by omega
          simp [chainNode, hk0, this]
        · have : a + 1 < N := by omega
          simp [chainNode, hk0, this, hodd]
      have hr : (chainNode N a).right = none := by
        simp [chainNode, hodd]
      have := Represents.node hcell (hl ▸ hnext) (hr ▸ Represents.null)
      simpa [chain, hcond, chainNode] using this
    · have hcond : ¬ (((a : Int) + 1).tmod 2 ≠ 0) := by
        have := tmod_two_natCast (a + 1)
        simp only [Nat.cast_add, Nat.cast_one] at this
        rw [this]; omega
      have heven : (a + 1) % 2 = 0 := by omega
      have hr : (chainNode N a).right = if k = 0 then none else some (a + 1) := by
        by_cases hk0 : k = 0
        · have : ¬ (a + 1 < N) := by omega
          simp [chainNode, hk0, this]
        · have : a + 1 < N := by omega
          simp [chainNode, hk0, this, heven]
      have hl : (chainNode N a).left = none := by
        simp [chainNode, heven]
      have := Represents.node hcell (hl ▸ Represents.null) (hr ▸ hnext)
      simpa [chain, hcond, chainNode] using this


theorem traverseTree_chain (m : Memory) (N : Nat) (hN : 1 ≤ N)
    (hm : ∀ a, a < N → m.cell a = some (chainNode N a)) (con coff fuel : Nat)
    (hfuel : N ≤ fuel) (f : Frame) (hlen : N ≤ f.leds.length) :
    ∃ f', traverseTree fuel m (some 0) con coff f = .ok f' ∧
      f'.leds.length = f.leds.length ∧
      f'.writes = f.writes ++ (List.range' 0 N).map (fun x : Nat => (x : Int)) ∧
      (∀ j : Nat, j < N → f'.leds[j]? = some (colorOf con coff j)) ∧
      (∀ j : Nat, N ≤ j → f'.leds[j]? = f.leds[j]?) := by
  have hrep := represents_chain m N hm N 0 (by omega)
  have hN0 : ¬ (N = 0) := by omega
  simp only [hN0, if_false, Nat.cast_zero] at hrep
  have htr := traverseTree_eq_paint m con coff (some 0) (chain N 0) hrep fuel f
    (by rw [chain_height]; exact hfuel)
  have hpre := chain_preorder N 0
  simp only [Nat.cast_zero] at hpre
  rw [hpre] at htr
  obtain ⟨f', hp, hl, hw, hin, hout⟩ :=
    paint_of_inBounds con coff ((List.range' 0 N).map (fun x : Nat => (x : Int))) f
      (by
        intro i hi
        obtain ⟨x, hx, rfl⟩ := List.mem_map.mp hi
        have := List.mem_range'_1.mp hx
        constructor
        · exact Int.ofNat_nonneg x
        · have hxl : x < f.leds.length := by omega
          exact_mod_cast hxl)
  refine ⟨f', htr.trans hp, hl, hw, ?_, ?_⟩
  · intro j hj
    apply hin
    exact List.mem_map.mpr ⟨j, List.mem_range'_1.mpr ⟨by omega, by omega⟩, rfl⟩
  · intro j hj
    apply hout
    intro hmem
    obtain ⟨x, hx, hxj⟩ := List.mem_map.mp hmem
    have := List.mem_range'_1.mp hx
    have : x = j := by exact_mod_cast hxj
    omega

theorem paint_writes (con coff : Nat) :
    ∀ (is : List Int) (f f' : Frame), paint con coff is f = .ok f' →
      f'.writes = f.writes ++ is ∧ f'.leds.length = f.leds.length ∧
        ∀ i ∈ is, 0 ≤ i ∧ i < f.leds.length := by
  intro is
  induction is with
  | nil =>
    intro f f' h
    simp only [paint, Except.ok.injEq] at h
    subst h
    simp
  | cons i is ih =>
    intro f f' h
    simp only [paint] at h
    by_cases hb : 0 ≤ i ∧ i < f.leds.length
    · rw [writeLed_of_inBounds f i _ hb.1 hb.2] at h
      obtain ⟨hw, hl, hi⟩ := ih _ f' h
      simp only [List.length_set] at hl hi
      refine ⟨by simpa using hw, hl, ?_⟩
      intro x hx
      rcases List.mem_cons.mp hx with rfl | hx
      · exact hb
      · exact hi x hx
    · simp [writeLed, hb] at h

/-- Two lists of one length that agree at every index below it are equal. -/
theorem list_eq_of_slots (xs ys : List Nat) (N : Nat) (hx : xs.length = N)
    (hy : ys.length = N) (h : ∀ j, j < N → xs[j]? = ys[j]?) : xs = ys := by
  apply List.ext_getElem?
  intro j
  by_cases hj : j < N
  · exact h j hj
  · rw [List.getElem?_eq_none (by omega), List.getElem?_eq_none (by omega)]

/-! ## Bounds safety for an arbitrary heap -/

theorem traverseTree_length (m : Memory) (con coff : Nat) :
    ∀ (fuel : Nat) (p : Option Nat) (f f' : Frame),
      traverseTree fuel m p con coff f = .ok f' → f'.leds.length = f.leds.length := by
  intro fuel
  induction fuel with
  | zero =>
    intro p f f' h
    cases p with
    | none => simp only [traverseTree, Except.ok.injEq] at h; subst h; rfl
    | some a => simp [traverseTree] at h
  | succ fuel ih =>
    intro p f f' h
    cases p with
    | none => simp only [traverseTree, Except.ok.injEq] at h; subst h; rfl
    | some a =>
      simp only [traverseTree, load] at h
      cases hc : m.cell a with
      | none => simp [hc] at h
      | some nd =>
        simp only [hc] at h
        by_cases hb : 0 ≤ nd.led_index ∧ nd.led_index < f.leds.length
        · rw [writeLed_of_inBounds f _ _ hb.1 hb.2] at h
          simp only at h
          cases hl : traverseTree fuel m nd.left con coff
              { leds := f.leds.set nd.led_index.toNat
                  (if nd.led_index.tmod 2 = 0 then con else coff),
                writes := f.writes ++ [nd.led_index] } with
          | error e => simp [hl] at h
          | ok f2 =>
            simp only [hl] at h
            have h1 := ih _ _ _ hl
            have h2 := ih _ _ _ h
            simp only [List.length_set] at h1
            omega
        · simp [writeLed, hb] at h

theorem traverseTree_no_outOfBounds (m : Memory) (con coff L : Nat)
    (hm : ∀ a nd, m.cell a = some nd → 0 ≤ nd.led_index ∧ nd.led_index < L) :
    ∀ (fuel : Nat) (p : Option Nat) (f : Frame), f.leds.length = L →
      traverseTree fuel m p con coff f ≠ .error .outOfBounds := by
  intro fuel
  induction fuel with
  | zero =>
    intro p f _
    cases p <;> simp [traverseTree]
  | succ fuel ih =>
    intro p f hf
    cases p with
    | none => simp [traverseTree]
    | some a =>
      simp only [traverseTree, load]
      cases hc : m.cell a with
      | none => simp
      | some nd =>
        have hb := hm a nd hc
        rw [← hf] at hb
        simp only
        rw [writeLed_of_inBounds f _ _ hb.1 hb.2]
        simp only
        cases hl : traverseTree fuel m nd.left con coff
            { leds := f.leds.set nd.led_index.toNat
                (if nd.led_index.tmod 2 = 0 then con else coff),
              writes := f.writes ++ [nd.led_index] } with
        | error e =>
          simp only
          intro he
          have hne := ih nd.left
            { leds := f.leds.set nd.led_index.toNat
                (if nd.led_index.tmod 2 = 0 then con else coff),
              writes := f.writes ++ [nd.led_index] } (by simpa using hf)
          rw [hl] at hne
          exact hne he
        | ok f2 =>
          simp only
          have h1 := traverseTree_length m con coff _ _ _ _ hl
          simp only [List.length_set] at h1
          exact ih nd.right f2 (by omega)


theorem build_exhausted (N cap : Nat) (hN : 1 ≤ N) (hcap : cap < N) :
    build N (Memory.fresh cap) = .error .nullDeref := by
  by_cases h0 : cap = 0
  · subst h0
    have hc := createNode_of_full (Memory.fresh 0) 0 (by simp [Memory.fresh])
    simp only [build, hc]
  · have hc := createNode_of_room (Memory.fresh cap) 0 (by simp [Memory.fresh]; omega)
    have h := buildLoop_chain N N 1
      { cell := fun a => if a = 0 then some ⟨0, none, none⟩ else none, brk := 1, limit := cap }
      (le_refl 1) hN (by omega) (by simp only; omega) rfl
      (by
        intro a ha
        have ha0 : a = 0 := by omega
        subst ha0
        simp [chainNode])
      (by
        intro a ha
        have ha0 : ¬ (a = 0) := by omega
        simp only [ha0, if_false])
    have hm := h.2 hcap
    simp only [Nat.cast_one, Nat.sub_self] at hm
    simp only [Memory.fresh, zero_add] at hc
    simp only [build, Memory.fresh, hc, Int.toNat_ofNat, hm]

theorem colorOf_natCast (con coff j : Nat) :
    colorOf con coff (j : Int) = if j % 2 = 0 then con else coff := by
  rw [colorOf, tmod_two_natCast]
  by_cases h : j % 2 = 0
  · have hz : ((j % 2 : Nat) : Int) = 0 := by omega
    rw [if_pos h, if_pos hz]
  · have hz : ¬ (((j % 2 : Nat) : Int) = 0) := by omega
    rw [if_neg h, if_neg hz]

theorem lnot_eq_one_iff (s : Int) : lnot s = 1 ↔ s = 0 := by
  by_cases h : s = 0 <;> simp [lnot, h]

theorem lnot_eq_zero_iff (s : Int) : lnot s = 0 ↔ s ≠ 0 := by
  by_cases h : s = 0 <;> simp [lnot, h]

theorem stateAfter_zero_or_one (k : Nat) : stateAfter k = 0 ∨ stateAfter k = 1 := by
  cases k with
  | zero => exact Or.inl rfl
  | succ k =>
    by_cases h : stateAfter k = 0
    · exact Or.inr (by simp [stateAfter, lnot, h])
    · exact Or.inl (by simp [stateAfter, lnot, h])

/-! ## The claims -/

/-- C1: for every `N ≥ 1`, one call of `traverseTree` on the root of the tree built by the
construction loop of `main` over the indices `0 .. N-1` returns, and the indices it stores
to are each index of `[0, N)` exactly once and nothing else. -/
theorem build_traverse_visits_each_index_once (N cap fuel con coff : Nat) (f : Frame)
    (hN : 1 ≤ N) (hcap : N ≤ cap) (hfuel : N ≤ fuel) (hlen : f.leds.length = N) :
    ∃ root m f' visits, build N (Memory.fresh cap) = .ok (root, m) ∧
      traverseTree fuel m root con coff f = .ok f' ∧
      f'.writes = f.writes ++ visits ∧
      (∀ i : Nat, i < N → visits.count (i : Int) = 1) ∧
      (∀ x ∈ visits, 0 ≤ x ∧ x < N) ∧
      visits.length = N := by
  obtain ⟨m, hb, _, _, hlo, _⟩ := build_chain N cap hN hcap
  obtain ⟨f', ht, _, hw, _, _⟩ :=
    traverseTree_chain m N hN hlo con coff fuel hfuel f (by omega)
  refine ⟨some 0, m, f', (List.range' 0 N).map (fun x : Nat => (x : Int)), hb, ht, hw,
    ?_, ?_, by simp⟩
  · intro i hi
    apply List.count_eq_one_of_mem
    · exact (List.nodup_range' 0 N).map (fun a b hab => by exact_mod_cast hab)
    · exact List.mem_map.mpr ⟨i, List.mem_range'_1.mpr ⟨by omega, by omega⟩, rfl⟩
  · intro x hx
    obtain ⟨y, hy, rfl⟩ := List.mem_map.mp hx
    have := List.mem_range'_1.mp hy
    constructor
    · exact Int.ofNat_nonneg y
    · have hyN : y < N := by omega
      exact_mod_cast hyN

/-- Witness for C1 at `N = 3`. -/
theorem build_traverse_visits_each_index_once_witness :
    (1 ≤ 3 ∧ 3 ≤ 5 ∧ 3 ≤ 4 ∧ (Frame.mk [7, 7, 7] []).leds.length = 3) ∧
    ∃ root m f' visits, build ((3 : Nat) : Int) (Memory.fresh 5) = .ok (root, m) ∧
      traverseTree 4 m root 1 2 (Frame.mk [7, 7, 7] []) = .ok f' ∧
      f'.writes = (Frame.mk [7, 7, 7] []).writes ++ visits ∧
      (∀ i : Nat, i < 3 → visits.count (i : Int) = 1) ∧
      (∀ x ∈ visits, 0 ≤ x ∧ x < ((3 : Nat) : Int)) ∧
      visits.length = 3 :=
  ⟨⟨by decide, by decide, by decide, rfl⟩,
    build_traverse_visits_each_index_once 3 5 4 1 2 (Frame.mk [7, 7, 7] [])
      (by decide) (by decide) (by decide) rfl⟩

/-- C2: for every `N ≥ 1` and every frame buffer of length `N`, a tick whose flip makes
`state` equal to `1` (the on-phase) returns and leaves slot `i` green `0x00FF00` for every
even `i < N` and black `0x000000` for every odd `i < N`; for `N = 4` the frame is
green, black, green, black. -/
theorem tick_on_phase_frame (N cap fuel : Nat) (state : Int) (f : Frame)
    (hN : 1 ≤ N) (hcap : N ≤ cap) (hfuel : N ≤ fuel) (hlen : f.leds.length = N)
    (hon : lnot state = 1) :
    ∃ root m f', build N (Memory.fresh cap) = .ok (root, m) ∧
      tick fuel m root state f = .ok (1, f') ∧ f'.leds.length = N ∧
      (∀ i : Nat, i < N → i % 2 = 0 → f'.leds[i]? = some 0x00FF00) ∧
      (∀ i : Nat, i < N → i % 2 = 1 → f'.leds[i]? = some 0x000000) ∧
      (N = 4 → f'.leds = [0x00FF00, 0x000000, 0x00FF00, 0x000000]) := by
  obtain ⟨m, hb, _, _, hlo, _⟩ := build_chain N cap hN hcap
  obtain ⟨f', ht, hl, _, hin, _⟩ :=
    traverseTree_chain m N hN hlo 0x00ff00 0x000000 fuel hfuel f (by omega)
  have heven : ∀ i : Nat, i < N → i % 2 = 0 → f'.leds[i]? = some 0x00FF00 := by
    intro i hi hpar
    rw [hin i hi, colorOf_natCast]
    simp [hpar]
  have hodd : ∀ i : Nat, i < N → i % 2 = 1 → f'.leds[i]? = some 0x000000 := by
    intro i hi hpar
    rw [hin i hi, colorOf_natCast]
    simp [hpar]
  refine ⟨some 0, m, f', hb, ?_, by omega, heven, hodd, ?_⟩
  · simp only [tick, hon, if_true, ht]
  · intro h4
    subst h4
    refine list_eq_of_slots f'.leds _ 4 (by omega) rfl ?_
    intro j hj
    interval_cases j
    · simpa using heven 0 (by decide) (by decide)
    · simpa using hodd 1 (by decide) (by decide)
    · simpa using heven 2 (by decide) (by decide)
    · simpa using hodd 3 (by decide) (by decide)

/-- Witness for C2 at `N = 4`, `state = 0`. -/
theorem tick_on_phase_frame_witness :
    (1 ≤ 4 ∧ 4 ≤ 4 ∧ 4 ≤ 4 ∧ (Frame.mk [9, 9, 9, 9] []).leds.length = 4 ∧ lnot 0 = 1) ∧
    ∃ root m f', build ((4 : Nat) : Int) (Memory.fresh 4) = .ok (root, m) ∧
      tick 4 m root 0 (Frame.mk [9, 9, 9, 9] []) = .ok (1, f') ∧ f'.leds.length = 4 ∧
      (∀ i : Nat, i < 4 → i % 2 = 0 → f'.leds[i]? = some 0x00FF00) ∧
      (∀ i : Nat, i < 4 → i % 2 = 1 → f'.leds[i]? = some 0x000000) ∧
      (4 = 4 → f'.leds = [0x00FF00, 0x000000, 0x00FF00, 0x000000]) :=
  ⟨⟨by decide, by decide, by decide, rfl, rfl⟩,
    tick_on_phase_frame 4 4 4 0 (Frame.mk [9, 9, 9, 9] [])
      (by decide) (by decide) (by decide) rfl rfl⟩

/-- C3: for every `N ≥ 1` and every frame buffer of length `N`, a tick whose flip makes
`state` equal to `0` (the off-phase) returns and leaves slot `i` black `0x000000` for every
even `i < N` and red `0xFF0000` for every odd `i < N`; for `N = 4` the frame is
black, red, black, red. -/
theorem tick_off_phase_frame (N cap fuel : Nat) (state : Int) (f : Frame)
    (hN : 1 ≤ N) (hcap : N ≤ cap) (hfuel : N ≤ fuel) (hlen : f.leds.length = N)
    (hoff : lnot state = 0) :
    ∃ root m f', build N (Memory.fresh cap) = .ok (root, m) ∧
      tick fuel m root state f = .ok (0, f') ∧ f'.leds.length = N ∧
      (∀ i : Nat, i < N → i % 2 = 0 → f'.leds[i]? = some 0x000000) ∧
      (∀ i : Nat, i < N → i % 2 = 1 → f'.leds[i]? = some 0xFF0000) ∧
      (N = 4 → f'.leds = [0x000000, 0xFF0000, 0x000000, 0xFF0000]) := by
  obtain ⟨m, hb, _, _, hlo, _⟩ := build_chain N cap hN hcap
  obtain ⟨f', ht, hl, _, hin, _⟩ :=
    traverseTree_chain m N hN hlo 0x000000 0xff0000 fuel hfuel f (by omega)
  have heven : ∀ i : Nat, i < N → i % 2 = 0 → f'.leds[i]? = some 0x000000 := by
    intro i hi hpar
    rw [hin i hi, colorOf_natCast]
    simp [hpar]
  have hodd : ∀ i : Nat, i < N → i % 2 = 1 → f'.leds[i]? = some 0xFF0000 := by
    intro i hi hpar
    rw [hin i hi, colorOf_natCast]
    simp [hpar]
  refine ⟨some 0, m, f', hb, ?_, by omega, heven, hodd, ?_⟩
  · simp [tick, hoff, ht]
  · intro h4
    subst h4
    refine list_eq_of_slots f'.leds _ 4 (by omega) rfl ?_
    intro j hj
    interval_cases j
    · simpa using heven 0 (by decide) (by decide)
    · simpa using hodd 1 (by decide) (by decide)
    · simpa using heven 2 (by decide) (by decide)
    · simpa using hodd 3 (by decide) (by decide)

/-- Witness for C3 at `N = 4`, `state = 1`. -/
theorem tick_off_phase_frame_witness :
    (1 ≤ 4 ∧ 4 ≤ 4 ∧ 4 ≤ 4 ∧ (Frame.mk [9, 9, 9, 9] []).leds.length = 4 ∧ lnot 1 = 0) ∧
    ∃ root m f', build ((4 : Nat) : Int) (Memory.fresh 4) = .ok (root, m) ∧
      tick 4 m root 1 (Frame.mk [9, 9, 9, 9] []) = .ok (0, f') ∧ f'.leds.length = 4 ∧
      (∀ i : Nat, i < 4 → i % 2 = 0 → f'.leds[i]? = some 0x000000) ∧
      (∀ i : Nat, i < 4 → i % 2 = 1 → f'.leds[i]? = some 0xFF0000) ∧
      (4 = 4 → f'.leds = [0x000000, 0xFF0000, 0x000000, 0xFF0000]) :=
  ⟨⟨by decide, by decide, by decide, rfl, rfl⟩,
    tick_off_phase_frame 4 4 4 1 (Frame.mk [9, 9, 9, 9] [])
      (by decide) (by decide) (by decide) rfl rfl⟩

/-- C4: the flip `state = !state` strictly alternates the phase.  Every value `state` takes
in the render loop, starting from `0`, is `0` or `1`; one flip gives the other value and two
flips give the value back; hence a tick run from a reachable state continues in the flipped
state, and the tick after it runs in the state different from that one. -/
theorem toggle_strictly_alternates (k : Nat) :
    (stateAfter k = 0 ∨ stateAfter k = 1) ∧
    lnot (stateAfter k) ≠ stateAfter k ∧
    lnot (lnot (stateAfter k)) = stateAfter k ∧
    (∀ (fuel : Nat) (m : Memory) (root : Option Nat) (f f1 f2 : Frame) (s1 s2 : Int),
      tick fuel m root (stateAfter k) f = .ok (s1, f1) →
      tick fuel m root s1 f1 = .ok (s2, f2) →
      s1 = stateAfter (k + 1) ∧ s2 = stateAfter (k + 2) ∧ s1 ≠ stateAfter k ∧ s2 ≠ s1 ∧
        s2 = stateAfter k) := by
  have h01 := stateAfter_zero_or_one k
  have hflip : lnot (stateAfter k) ≠ stateAfter k := by
    rcases h01 with h | h <;> simp [h, lnot]
  have hback : lnot (lnot (stateAfter k)) = stateAfter k := by
    rcases h01 with h | h <;> simp [h, lnot]
  refine ⟨h01, hflip, hback, ?_⟩
  intro fuel m root f f1 f2 s1 s2 ht1 ht2
  have hs1 : s1 = lnot (stateAfter k) := by
    simp only [tick] at ht1
    split at ht1
    · exact absurd ht1 (by simp)
    · simp only [Except.ok.injEq, Prod.mk.injEq] at ht1
      exact ht1.1.symm
  have hs2 : s2 = lnot s1 := by
    simp only [tick] at ht2
    split at ht2
    · exact absurd ht2 (by simp)
    · simp only [Except.ok.injEq, Prod.mk.injEq] at ht2
      exact ht2.1.symm
  subst hs2
  subst hs1
  refine ⟨rfl, rfl, hflip, ?_, hback⟩
  rw [hback]
  exact fun h => hflip h.symm

/-- Witness for C4: the first two ticks over the empty tree. -/
theorem toggle_strictly_alternates_witness :
    (1 : Int) = stateAfter (0 + 1) ∧ (0 : Int) = stateAfter (0 + 2) ∧
      (1 : Int) ≠ stateAfter 0 ∧ (0 : Int) ≠ 1 ∧ (0 : Int) = stateAfter 0 :=
  (toggle_strictly_alternates 0).2.2.2 0 (Memory.fresh 0) none
    (Frame.mk [] []) (Frame.mk [] []) (Frame.mk [] []) 1 0 rfl rfl

/-- C5: each tick fully overwrites the frame buffer.  For every `N ≥ 1`, every value of
`state` and any two frame buffers of length `N`, the tick over the built tree returns on
both and the two resulting buffers are equal at every index of `[0, N)`, hence equal. -/
theorem tick_overwrites_frame (N cap fuel : Nat) (state : Int) (f g : Frame)
    (hN : 1 ≤ N) (hcap : N ≤ cap) (hfuel : N ≤ fuel)
    (hf : f.leds.length = N) (hg : g.leds.length = N) :
    ∃ root m s f' g', build N (Memory.fresh cap) = .ok (root, m) ∧
      tick fuel m root state f = .ok (s, f') ∧ tick fuel m root state g = .ok (s, g') ∧
      f'.leds.length = N ∧ g'.leds.length = N ∧
      (∀ i : Nat, i < N → f'.leds[i]? = g'.leds[i]?) ∧ f'.leds = g'.leds := by
  obtain ⟨m, hb, _, _, hlo, _⟩ := build_chain N cap hN hcap
  obtain ⟨f', htf, hlf, _, hinf, _⟩ :=
    traverseTree_chain m N hN hlo (if lnot state = 1 then 0x00ff00 else 0x000000)
      (if lnot state = 1 then 0x000000 else 0xff0000) fuel hfuel f (by omega)
  obtain ⟨g', htg, hlg, _, hing, _⟩ :=
    traverseTree_chain m N hN hlo (if lnot state = 1 then 0x00ff00 else 0x000000)
      (if lnot state = 1 then 0x000000 else 0xff0000) fuel hfuel g (by omega)
  have hslots : ∀ i : Nat, i < N → f'.leds[i]? = g'.leds[i]? := by
    intro i hi
    rw [hinf i hi, hing i hi]
  refine ⟨some 0, m, lnot state, f', g', hb, ?_, ?_, by omega, by omega, hslots, ?_⟩
  · simp only [tick, htf]
  · simp only [tick, htg]
  · exact list_eq_of_slots f'.leds g'.leds N (by omega) (by omega) hslots

/-- Witness for C5 at `N = 3` with two different starting buffers. -/
theorem tick_overwrites_frame_witness :
    (1 ≤ 3 ∧ 3 ≤ 3 ∧ 3 ≤ 3 ∧ (Frame.mk [1, 2, 3] []).leds.length = 3 ∧
      (Frame.mk [4, 5, 6] [8]).leds.length = 3) ∧
    ∃ root m s f' g', build ((3 : Nat) : Int) (Memory.fresh 3) = .ok (root, m) ∧
      tick 3 m root 0 (Frame.mk [1, 2, 3] []) = .ok (s, f') ∧
      tick 3 m root 0 (Frame.mk [4, 5, 6] [8]) = .ok (s, g') ∧
      f'.leds.length = 3 ∧ g'.leds.length = 3 ∧
      (∀ i : Nat, i < 3 → f'.leds[i]? = g'.leds[i]?) ∧ f'.leds = g'.leds :=
  ⟨⟨by decide, by decide, by decide, rfl, rfl⟩,
    tick_overwrites_frame 3 3 3 0 (Frame.mk [1, 2, 3] []) (Frame.mk [4, 5, 6] [8])
      (by decide) (by decide) (by decide) rfl rfl⟩

/-- C6: for every `N ≥ 1` the construction loop leaves a single-child chain.  The heap
holds exactly `N` nodes, the root holds index `0`, the node holding `i` with `i + 1 < N`
has exactly one child, the node holding `i + 1`, which is its left child when `i + 1` is
odd and its right child when `i + 1` is even; the node holding `N - 1` has no child; no
node has two children. -/
theorem build_is_single_child_chain (N cap : Nat) (hN : 1 ≤ N) (hcap : N ≤ cap) :
    ∃ m, build N (Memory.fresh cap) = .ok (some 0, m) ∧
      (∀ a : Nat, N ≤ a → m.cell a = none) ∧
      (∀ i : Nat, i < N → ∃ nd, m.cell i = some nd ∧ nd.led_index = i ∧
        (i + 1 < N → (i + 1) % 2 = 1 → nd.left = some (i + 1) ∧ nd.right = none) ∧
        (i + 1 < N → (i + 1) % 2 = 0 → nd.left = none ∧ nd.right = some (i + 1)) ∧
        (i + 1 = N → nd.left = none ∧ nd.right = none)) ∧
      (∀ (a : Nat) (nd : TreeNode), m.cell a = some nd → nd.left = none ∨ nd.right = none) ∧
      Represents m (some 0) (chain N 0) := by
  obtain ⟨m, hb, _, _, hlo, hhi⟩ := build_chain N cap hN hcap
  refine ⟨m, hb, hhi, ?_, ?_, ?_⟩
  · intro i hi
    refine ⟨chainNode N i, hlo i hi, rfl, ?_, ?_, ?_⟩
    · intro h1 hodd
      simp [chainNode, h1, hodd]
    · intro h1 heven
      simp [chainNode, h1, heven]
    · intro hlast
      have : ¬ (i + 1 < N) := by omega
      simp [chainNode, this]
  · intro a nd hnd
    by_cases ha : a < N
    · rw [hlo a ha] at hnd
      simp only [Option.some.injEq] at hnd
      subst hnd
      by_cases hpar : (a + 1) % 2 = 0
      · left; simp [chainNode, hpar]
      · right; simp [chainNode, hpar]
    · rw [hhi a (by omega)] at hnd
      exact absurd hnd (by simp)
  · have hrep := represents_chain m N hlo N 0 (by omega)
    have hN0 : ¬ (N = 0) := by omega
    simpa [hN0] using hrep

/-- Witness for C6 at `N = 5`. -/
theorem build_is_single_child_chain_witness :
    (1 ≤ 5 ∧ 5 ≤ 8) ∧
    ∃ m, build ((5 : Nat) : Int) (Memory.fresh 8) = .ok (some 0, m) ∧
      (∀ a : Nat, 5 ≤ a → m.cell a = none) ∧
      (∀ i : Nat, i < 5 → ∃ nd, m.cell i = some nd ∧ nd.led_index = i ∧
        (i + 1 < 5 → (i + 1) % 2 = 1 → nd.left = some (i + 1) ∧ nd.right = none) ∧
        (i + 1 < 5 → (i + 1) % 2 = 0 → nd.left = none ∧ nd.right = some (i + 1)) ∧
        (i + 1 = 5 → nd.left = none ∧ nd.right = none)) ∧
      (∀ (a : Nat) (nd : TreeNode), m.cell a = some nd → nd.left = none ∨ nd.right = none) ∧
      Represents m (some 0) (chain 5 ((0 : Nat) : Int)) :=
  ⟨⟨by decide, by decide⟩, build_is_single_child_chain 5 8 (by decide) (by decide)⟩


theorem represents_forkHeap : Represents forkHeap (some 0) forkTree :=
  @Represents.node forkHeap 0 ⟨0, some 1, some 2⟩ _ _ rfl
    (@Represents.node forkHeap 1 ⟨2, none, none⟩ _ _ rfl Represents.null Represents.null)
    (@Represents.node forkHeap 2 ⟨1, none, none⟩ _ _ rfl Represents.null Represents.null)

/-- C7: for every finite tree laid out in the heap, of any shape, `traverseTree` issues its
stores in pre-order.  With fuel at least the height of the tree the call is the run of
stores over the pre-order sequence of the tree; whenever it returns, the indices it wrote
are that sequence, and it returns when all indices lie in the frame buffer.  The sequence
of a node is its own index, then the sequence of its left subtree, then the sequence of
its right subtree; the `NULL` tree is traversed with no store at all. -/
theorem traverseTree_visits_in_preorder (m : Memory) (p : Option Nat) (t : Tree)
    (h : Represents m p t) (con coff fuel : Nat) (f : Frame) (hfuel : t.height ≤ fuel) :
    traverseTree fuel m p con coff f = paint con coff t.preorder f ∧
    (∀ f', traverseTree fuel m p con coff f = .ok f' → f'.writes = f.writes ++ t.preorder) ∧
    ((∀ i ∈ t.preorder, 0 ≤ i ∧ i < f.leds.length) →
      ∃ f', traverseTree fuel m p con coff f = .ok f' ∧
        f'.writes = f.writes ++ t.preorder) ∧
    (∀ (a : Nat) (nd : TreeNode), p = some a → m.cell a = some nd →
      ∃ l r, Represents m nd.left l ∧ Represents m nd.right r ∧
        t.preorder = nd.led_index :: (l.preorder ++ r.preorder)) ∧
    (p = none → t.preorder = []) ∧
    (∀ (fuel0 : Nat) (f0 : Frame), traverseTree fuel0 m none con coff f0 = .ok f0) := by
  have heq := traverseTree_eq_paint m con coff p t h fuel f hfuel
  refine ⟨heq, ?_, ?_, ?_, ?_, ?_⟩
  · intro f' hf'
    rw [heq] at hf'
    exact (paint_writes con coff t.preorder f f' hf').1
  · intro hb
    obtain ⟨f', hp, _, hw, _, _⟩ := paint_of_inBounds con coff t.preorder f hb
    exact ⟨f', heq.trans hp, hw⟩
  · intro a nd hp hcell
    cases h with
    | null => exact absurd hp (by simp)
    | @node a' nd' l r hcell' hl hr =>
      simp only [Option.some.injEq] at hp
      subst hp
      rw [hcell] at hcell'
      simp only [Option.some.injEq] at hcell'
      subst hcell'
      exact ⟨l, r, hl, hr, rfl⟩
  · intro hp
    cases h with
    | null => rfl
    | node _ _ _ => exact absurd hp (by simp)
  · intro fuel0 f0
    cases fuel0 <;> rfl

/-- Witness for C7 on a branching tree: indices `0`, `2`, `1` are written in this order. -/
theorem traverseTree_visits_in_preorder_witness :
    (Represents forkHeap (some 0) forkTree ∧ forkTree.height ≤ 2) ∧
    ∃ f', traverseTree 2 forkHeap (some 0) 5 6 (Frame.mk [0, 0, 0] []) = .ok f' ∧
      f'.writes = (Frame.mk [0, 0, 0] []).writes ++ [0, 2, 1] :=
  ⟨⟨represents_forkHeap, by decide⟩,
    (traverseTree_visits_in_preorder forkHeap (some 0) forkTree represents_forkHeap 5 6 2
      (Frame.mk [0, 0, 0] []) (by decide)).2.2.1 (by decide)⟩

/-- C8: indices are in range by construction.  For every `N ≥ 1` every node of the built
tree has `0 ≤ led_index < N`; with a frame buffer of length `N` no call of `traverseTree`
on the built tree, whatever the fuel, ends in an out-of-bounds store, and with fuel `N` or
more the call returns. -/
theorem build_indices_in_range (N cap : Nat) (hN : 1 ≤ N) (hcap : N ≤ cap) :
    ∃ root m, build N (Memory.fresh cap) = .ok (root, m) ∧
      (∀ (a : Nat) (nd : TreeNode), m.cell a = some nd →
        0 ≤ nd.led_index ∧ nd.led_index < N) ∧
      (∀ (fuel con coff : Nat) (f : Frame), f.leds.length = N →
        traverseTree fuel m root con coff f ≠ .error .outOfBounds) ∧
      (∀ (fuel con coff : Nat) (f : Frame), N ≤ fuel → f.leds.length = N →
        ∃ f', traverseTree fuel m root con coff f = .ok f') := by
  obtain ⟨m, hb, _, _, hlo, hhi⟩ := build_chain N cap hN hcap
  have hrange : ∀ (a : Nat) (nd : TreeNode), m.cell a = some nd →
      0 ≤ nd.led_index ∧ nd.led_index < N := by
    intro a nd hnd
    by_cases ha : a < N
    · rw [hlo a ha] at hnd
      simp only [Option.some.injEq] at hnd
      subst hnd
      simp only [chainNode]
      constructor
      · exact Int.ofNat_nonneg a
      · exact_mod_cast ha
    · rw [hhi a (by omega)] at hnd
      exact absurd hnd (by simp)
  refine ⟨some 0, m, hb, hrange, ?_, ?_⟩
  · intro fuel con coff f hf
    exact traverseTree_no_outOfBounds m con coff N hrange fuel (some 0) f hf
  · intro fuel con coff f hfuel hf
    obtain ⟨f', ht, _⟩ := traverseTree_chain m N hN hlo con coff fuel hfuel f (by omega)
    exact ⟨f', ht⟩

/-- Witness for C8 at `N = 45`, the configured `LED_COUNT`. -/
theorem build_indices_in_range_witness :
    (1 ≤ 45 ∧ 45 ≤ 45) ∧
    ∃ root m, build ((45 : Nat) : Int) (Memory.fresh 45) = .ok (root, m) ∧
      (∀ (a : Nat) (nd : TreeNode), m.cell a = some nd →
        0 ≤ nd.led_index ∧ nd.led_index < ((45 : Nat) : Int)) ∧
      (∀ (fuel con coff : Nat) (f : Frame), f.leds.length = 45 →
        traverseTree fuel m root con coff f ≠ .error .outOfBounds) ∧
      (∀ (fuel con coff : Nat) (f : Frame), 45 ≤ fuel → f.leds.length = 45 →
        ∃ f', traverseTree fuel m root con coff f = .ok f') :=
  ⟨⟨by decide, by decide⟩, build_indices_in_range 45 45 (by decide) (by decide)⟩

/-- C9: for `N = 1` the built tree is the single node holding index `0`, and
`traverseTree` with any pair of colours sets slot `0` to `color_on`; the resulting
frame is the same whatever `color_off` is. -/
theorem single_led_takes_color_on (cap fuel con coff : Nat) (f : Frame)
    (hcap : 1 ≤ cap) (hfuel : 1 ≤ fuel) (hlen : f.leds.length = 1) :
    ∃ m f', build 1 (Memory.fresh cap) = .ok (some 0, m) ∧
      m.cell 0 = some ⟨0, none, none⟩ ∧ (∀ a : Nat, 1 ≤ a → m.cell a = none) ∧
      traverseTree fuel m (some 0) con coff f = .ok f' ∧
      f'.leds = [con] ∧
      (∀ coff2 : Nat, traverseTree fuel m (some 0) con coff2 f = .ok f') := by
  obtain ⟨m, hb, _, _, hlo, hhi⟩ := build_chain 1 cap (le_refl 1) hcap
  obtain ⟨f', ht, hl, hw, hin, _⟩ :=
    traverseTree_chain m 1 (le_refl 1) hlo con coff fuel hfuel f (by omega)
  have hleds : f'.leds = [con] := by
    refine list_eq_of_slots f'.leds [con] 1 (by omega) rfl ?_
    intro j hj
    have hj0 : j = 0 := by omega
    subst hj0
    rw [hin 0 (by decide), colorOf_natCast]
    rfl
  refine ⟨m, f', by simpa using hb, by simpa [chainNode] using hlo 0 (by decide), hhi, ht,
    hleds, ?_⟩
  intro coff2
  obtain ⟨g', htg, hlg, hwg, hing, _⟩ :=
    traverseTree_chain m 1 (le_refl 1) hlo con coff2 fuel hfuel f (by omega)
  have hgleds : g'.leds = [con] := by
    refine list_eq_of_slots g'.leds [con] 1 (by omega) rfl ?_
    intro j hj
    have hj0 : j = 0 := by omega
    subst hj0
    rw [hing 0 (by decide), colorOf_natCast]
    rfl
  have hfg : g' = f' := by
    cases f'
    cases g'
    simp only [Frame.mk.injEq]
    exact ⟨hgleds.trans hleds.symm, hwg.trans hw.symm⟩
  rw [htg, hfg]

/-- Witness for C9: one slot, on-colour `5`, off-colour `6`. -/
theorem single_led_takes_color_on_witness :
    (1 ≤ 1 ∧ 1 ≤ 1 ∧ (Frame.mk [9] []).leds.length = 1) ∧
    ∃ m f', build 1 (Memory.fresh 1) = .ok (some 0, m) ∧
      m.cell 0 = some ⟨0, none, none⟩ ∧ (∀ a : Nat, 1 ≤ a → m.cell a = none) ∧
      traverseTree 1 m (some 0) 5 6 (Frame.mk [9] []) = .ok f' ∧
      f'.leds = [5] ∧
      (∀ coff2 : Nat, traverseTree 1 m (some 0) 5 coff2 (Frame.mk [9] []) = .ok f') :=
  ⟨⟨by decide, by decide, rfl⟩,
    single_led_takes_color_on 1 1 5 6 (Frame.mk [9] []) (by decide) (by decide) rfl⟩

/-- C10, as stated, fails: when `malloc` returns `NULL`, `createNode` goes on to store
through the missing storage, and so does the build in `main`, both for an allocator that
is empty from the start and for one that runs dry at the eleventh node. -/
theorem createNode_stores_through_null :
    (malloc (Memory.fresh 0)).1 = none ∧
    createNode (Memory.fresh 0) 0 = .error .nullDeref ∧
    build 45 (Memory.fresh 0) = .error .nullDeref ∧
    build 45 (Memory.fresh 10) = .error .nullDeref :=
  ⟨rfl, rfl, rfl, by simpa using build_exhausted 45 10 (by decide) (by decide)⟩

/-- C10, amended: `createNode` does not check what `malloc` returns and has no path that
reports an allocation failure.  When `malloc` returns `NULL` the store of `led_index` goes
through the null pointer, so that neither a node nor an error report results, and the
build in `main` ends in the same fault as soon as one of its `N` allocations fails.  When
`malloc` returns storage, `createNode` returns it holding `led_index` and two `NULL`
children, every other object being unchanged, and the build succeeds when all `N`
allocations do. -/
theorem createNode_unchecked_allocation (m : Memory) (led_index : Int) :
    ((malloc m).1 = none → createNode m led_index = .error .nullDeref) ∧
    (∀ a : Nat, (malloc m).1 = some a →
      ∃ m', createNode m led_index = .ok (some a, m') ∧
        m'.cell a = some ⟨led_index, none, none⟩ ∧
        (∀ b : Nat, b ≠ a → m'.cell b = m.cell b)) ∧
    (∀ N cap : Nat, 1 ≤ N → cap < N → build N (Memory.fresh cap) = .error .nullDeref) ∧
    (∀ N cap : Nat, 1 ≤ N → N ≤ cap → ∃ r, build N (Memory.fresh cap) = .ok r) := by
  refine ⟨?_, ?_, ?_, ?_⟩
  · intro h
    by_cases hroom : m.brk < m.limit
    · simp [malloc, hroom] at h
    · exact createNode_of_full m led_index hroom
  · intro a h
    by_cases hroom : m.brk < m.limit
    · simp only [malloc, hroom, if_true, Option.some.injEq] at h
      subst h
      refine ⟨_, createNode_of_room m led_index hroom, by simp, ?_⟩
      intro b hb
      simp [hb]
    · simp [malloc, hroom] at h
  · intro N cap hN hcap
    exact build_exhausted N cap hN hcap
  · intro N cap hN hcap
    obtain ⟨m', hb, _⟩ := build_chain N cap hN hcap
    exact ⟨_, hb⟩

/-- Witness for amended C10: an empty allocator and one with room for a single node. -/
theorem createNode_unchecked_allocation_witness :
    ((malloc (Memory.fresh 0)).1 = none ∧ (malloc (Memory.fresh 1)).1 = some 0) ∧
    createNode (Memory.fresh 0) 7 = .error .nullDeref ∧
    ∃ m', createNode (Memory.fresh 1) 7 = .ok (some 0, m') ∧
      m'.cell 0 = some ⟨7, none, none⟩ ∧
      (∀ b : Nat, b ≠ 0 → m'.cell b = (Memory.fresh 1).cell b) :=
  ⟨⟨rfl, rfl⟩, (createNode_unchecked_allocation (Memory.fresh 0) 7).1 rfl,
    (createNode_unchecked_allocation (Memory.fresh 1) 7).2.1 0 rfl⟩



/-! ## Release of a finite tree -/

theorem freeTree_postOrder (m : Memory) (p : Option Nat) (addrs : List Nat)
    (h : PostOrder m p addrs) :
    ∀ (m1 : Memory), (∀ a ∈ addrs, m1.cell a = m.cell a) → addrs.Nodup →
      ∀ (fuel : Nat) (freed : List Nat), addrs.length ≤ fuel →
        ∃ m2, freeTree fuel m1 p freed = .ok (m2, freed ++ addrs) ∧
          (∀ a ∈ addrs, m2.cell a = none) ∧ (∀ b, b ∉ addrs → m2.cell b = m1.cell b) ∧
          m2.brk = m1.brk ∧ m2.limit = m1.limit := by
  induction h with
  | null =>
    intro m1 _ _ fuel freed _
    refine ⟨m1, ?_, by simp, fun _ _ => rfl, rfl, rfl⟩
    cases fuel <;> simp [freeTree]
  | @node a nd ls rs hcell _ _ ihl ihr =>
    intro m1 hagree hnodup fuel freed hfuel
    have hnd1 : (ls ++ rs).Nodup ∧ a ∉ ls ++ rs := by
      have := List.nodup_append.mp hnodup
      refine ⟨this.1, ?_⟩
      intro hmem
      exact this.2.2 hmem (List.mem_singleton_self a)
    have hnd2 := List.nodup_append.mp hnd1.1
    have hals : a ∉ ls := fun hm => hnd1.2 (List.mem_append_left rs hm)
    have hars : a ∉ rs := fun hm => hnd1.2 (List.mem_append_right ls hm)
    cases fuel with
    | zero => simp at hfuel
    | succ fuel =>
      simp only [List.length_append, List.length_singleton] at hfuel
      have ha1 : m1.cell a = some nd := by
        rw [hagree a (by simp), hcell]
      obtain ⟨m2, hf2, hclr2, hkeep2, hbrk2, hlim2⟩ :=
        ihl m1 (fun x hx => hagree x (by simp [hx])) hnd2.1 fuel freed (by omega)
      have ha2 : m2.cell a = some nd := by
        rw [hkeep2 a hals, ha1]
      obtain ⟨m3, hf3, hclr3, hkeep3, hbrk3, hlim3⟩ :=
        ihr m2
          (fun x hx => by
            have hxl : x ∉ ls := fun hxl => hnd2.2.2 hxl hx
            rw [hkeep2 x hxl]
            exact hagree x (by simp [hx]))
          hnd2.2.1 fuel (freed ++ ls) (by omega)
      have ha3 : m3.cell a = some nd := by
        rw [hkeep3 a hars, ha2]
      refine ⟨{ m3 with cell := fun b => if b = a then none else m3.cell b }, ?_, ?_, ?_,
        ?_, ?_⟩
      · simp only [freeTree, load, ha1, hf2, ha2, hf3, free, ha3, List.append_assoc]
      · intro x hx
        by_cases hxa : x = a
        · simp [hxa]
        · simp only [hxa, if_false]
          rcases List.mem_append.mp hx with hx | hx
          · rcases List.mem_append.mp hx with hx | hx
            · by_cases hxr : x ∈ rs
              · exact hclr3 x hxr
              · rw [hkeep3 x hxr]
                exact hclr2 x hx
            · exact hclr3 x hx
          · exact absurd (List.mem_singleton.mp hx) hxa
      · intro b hb
        have hba : ¬ (b = a) := fun h => hb (by simp [h])
        have hbl : b ∉ ls := fun h => hb (by simp [h])
        have hbr : b ∉ rs := fun h => hb (by simp [h])
        simp only [hba, if_false]
        rw [hkeep3 b hbr, hkeep2 b hbl]
      · simp only [hbrk3, hbrk2]
      · simp only [hlim3, hlim2]


/-! ## Frames with alternating colours -/

theorem alternating_length (n con coff : Nat) : (alternating n con coff).length = n := by
  simp [alternating]

theorem alternating_slot (n con coff j : Nat) (hj : j < n) :
    (alternating n con coff)[j]? = some (if j % 2 = 0 then con else coff) := by
  simp [alternating, List.getElem?_map, List.getElem?_range hj]

theorem traverseTree_chain_leds (m : Memory) (N : Nat) (hN : 1 ≤ N)
    (hm : ∀ a, a < N → m.cell a = some (chainNode N a)) (con coff fuel : Nat)
    (hfuel : N ≤ fuel) (f : Frame) (hlen : f.leds.length = N) :
    ∃ f', traverseTree fuel m (some 0) con coff f = .ok f' ∧
      f'.leds = alternating N con coff ∧
      f'.writes = f.writes ++ (List.range' 0 N).map (fun x : Nat => (x : Int)) := by
  obtain ⟨f', ht, hl, hw, hin, _⟩ :=
    traverseTree_chain m N hN hm con coff fuel hfuel f (by omega)
  refine ⟨f', ht, ?_, hw⟩
  refine list_eq_of_slots f'.leds _ N (by omega) (alternating_length N con coff) ?_
  intro j hj
  rw [hin j hj, colorOf_natCast, alternating_slot N con coff j hj]

theorem stateAfter_eq (k : Nat) : stateAfter k = ((k % 2 : Nat) : Int) := by
  induction k with
  | zero => rfl
  | succ k ih =>
    rw [stateAfter, ih]
    rcases Nat.mod_two_eq_zero_or_one k with h | h
    · have h1 : (k + 1) % 2 = 1 := by omega
      simp [h, h1, lnot]
    · have h1 : (k + 1) % 2 = 0 := by omega
      simp [h, h1, lnot]

/-! ## The render loop over the built chain -/

theorem loopBody_chain (m : Memory) (N : Nat) (hN : 1 ≤ N)
    (hm : ∀ a, a < N → m.cell a = some (chainNode N a)) (fuel : Nat) (hfuel : N ≤ fuel)
    (s : Machine) (j : Nat) (hmem : s.mem = m) (hroot : s.root = some 0)
    (hlen : s.frame.leds.length = N) (hstate : s.state = stateAfter j) :
    ∃ s', loopBody fuel s = .ok s' ∧ s'.mem = m ∧ s'.root = some 0 ∧
      s'.state = stateAfter (j + 1) ∧
      s'.frame.leds = (if (j + 1) % 2 = 1 then onFrame N else offFrame N) ∧
      s'.frame.writes = s.frame.writes ++ (List.range' 0 N).map (fun x : Nat => (x : Int)) ∧
      s'.rendered = s.rendered ++ [if (j + 1) % 2 = 1 then onFrame N else offFrame N] := by
  obtain ⟨f', ht, hleds, hw⟩ :=
    traverseTree_chain_leds m N hN hm (if lnot s.state = 1 then 0x00ff00 else 0x000000)
      (if lnot s.state = 1 then 0x000000 else 0xff0000) fuel hfuel s.frame hlen
  have hnext : lnot s.state = stateAfter (j + 1) := by rw [hstate]; rfl
  have hphase : f'.leds = (if (j + 1) % 2 = 1 then onFrame N else offFrame N) := by
    rw [hleds, hnext, stateAfter_eq]
    rcases Nat.mod_two_eq_zero_or_one (j + 1) with h | h
    · simp [h, offFrame]
    · simp [h, onFrame]
  refine ⟨Machine.mk s.mem s.root (lnot s.state) f' (s.rendered ++ [f'.leds]), ?_, hmem,
    hroot, hnext, hphase, hw, ?_⟩
  · simp only [loopBody, tick, hmem, hroot, ht]
  · simp only [hphase]

theorem renderLoop_chain (m : Memory) (N : Nat) (hN : 1 ≤ N)
    (hm : ∀ a, a < N → m.cell a = some (chainNode N a)) (fuel : Nat) (hfuel : N ≤ fuel) :
    ∀ (k j : Nat) (s : Machine), s.mem = m → s.root = some 0 →
      s.frame.leds.length = N → s.state = stateAfter j →
      ∃ s', renderLoop k fuel s = .running s' ∧ s'.mem = m ∧ s'.root = some 0 ∧
        s'.frame.leds.length = N ∧ s'.state = stateAfter (j + k) ∧
        s'.rendered = s.rendered ++
          (List.range k).map (fun i => if (j + i + 1) % 2 = 1 then onFrame N else offFrame N) ∧
        (1 ≤ k → s'.frame.leds = (if (j + k) % 2 = 1 then onFrame N else offFrame N)) := by
  intro k
  induction k with
  | zero =>
    intro j s hmem hroot hlen hstate
    exact ⟨s, rfl, hmem, hroot, hlen, hstate, by simp, fun h => absurd h (by decide)⟩
  | succ k ih =>
    intro j s hmem hroot hlen hstate
    obtain ⟨s1, hb, hmem1, hroot1, hstate1, hleds1, _, hrend1⟩ :=
      loopBody_chain m N hN hm fuel hfuel s j hmem hroot hlen hstate
    have hlen1 : s1.frame.leds.length = N := by
      rw [hleds1]
      split <;> simp [onFrame, offFrame, alternating_length]
    obtain ⟨s2, hr, hmem2, hroot2, hlen2, hstate2, hrend2, hleds2⟩ :=
      ih (j + 1) s1 hmem1 hroot1 hlen1 hstate1
    refine ⟨s2, ?_, hmem2, hroot2, hlen2, ?_, ?_, ?_⟩
    · simp only [renderLoop, hb, hr]
      simp
    · rw [hstate2]
      congr 1
      omega
    · rw [hrend2, hrend1, List.range_succ_eq_map, List.map_cons, List.map_map,
        List.append_assoc]
      simp only [List.singleton_append, Nat.add_zero]
      congr 2
      apply List.map_congr_left
      intro i _
      simp only [Function.comp, Nat.succ_eq_add_one]
      have e : j + 1 + i + 1 = j + (i + 1) + 1 := by omega
      rw [e]
    · intro _
      by_cases hk : 1 ≤ k
      · have := hleds2 hk
        have e : j + 1 + k = j + (k + 1) := by omega
        rw [e] at this
        exact this
      · have hk0 : k = 0 := by omega
        subst hk0
        simp only [renderLoop, Outcome.running.injEq] at hr
        subst hr
        exact hleds1

theorem renderLoop_not_exited (fuel : Nat) :
    ∀ (k : Nat) (s : Machine) (code : Int) (s' : Machine),
      renderLoop k fuel s ≠ .exited code s' := by
  intro k
  induction k with
  | zero => intro s code s' h; simp [renderLoop] at h
  | succ k ih =>
    intro s code s' h
    simp only [renderLoop] at h
    cases hb : loopBody fuel s with
    | error e => simp [hb] at h
    | ok s1 =>
      simp only [hb] at h
      exact ih s1 code s' (by simpa using h)


theorem renderLoop_succ (fuel : Nat) (k : Nat) (s : Machine) :
    renderLoop (k + 1) fuel s =
      match loopBody fuel s with
      | .error e => .fault e
      | .ok s1 => renderLoop k fuel s1 := by
  simp [renderLoop]

theorem renderLoop_one_more (fuel : Nat) :
    ∀ (k : Nat) (s sk : Machine), renderLoop k fuel s = .running sk →
      renderLoop (k + 1) fuel s =
        match loopBody fuel sk with
        | .error e => .fault e
        | .ok s1 => .running s1 := by
  intro k
  induction k with
  | zero =>
    intro s sk h
    simp only [renderLoop, Outcome.running.injEq] at h
    subst h
    rw [renderLoop_succ]
    cases loopBody fuel s <;> rfl
  | succ k ih =>
    intro s sk h
    rw [renderLoop_succ] at h
    rw [renderLoop_succ]
    cases hb : loopBody fuel s with
    | error e => simp [hb] at h
    | ok s1 =>
      simp only [hb] at h
      simp only
      exact ih s1 sk h

theorem main_running (W : Int) (N cap fuel : Nat) (leds : List Nat) (ticks : Nat)
    (hN : 1 ≤ N) (hcap : N ≤ cap) (hfuel : N ≤ fuel) (hlen : leds.length = N) :
    ∃ m s, build N (Memory.fresh cap) = .ok (some 0, m) ∧
      (∀ a, a < N → m.cell a = some (chainNode N a)) ∧
      main W W N cap leds ticks fuel = .running s ∧ s.mem = m ∧ s.root = some 0 ∧
      s.frame.leds.length = N ∧ s.state = stateAfter ticks ∧
      s.rendered =
        (List.range ticks).map (fun i => if (i + 1) % 2 = 1 then onFrame N else offFrame N) ∧
      (1 ≤ ticks → s.frame.leds = (if ticks % 2 = 1 then onFrame N else offFrame N)) := by
  obtain ⟨m, hb, _, _, hlo, _⟩ := build_chain N cap hN hcap
  obtain ⟨s, hr, hmem, hroot, hl, hst, hrend, hleds⟩ :=
    renderLoop_chain m N hN hlo fuel hfuel ticks 0
      (Machine.mk m (some 0) 0 (Frame.mk leds []) []) rfl rfl hlen rfl
  refine ⟨m, s, hb, hlo, ?_, hmem, hroot, hl, ?_, ?_, ?_⟩
  · simp only [main, ne_eq, not_true_eq_false, if_false, hb]
    exact hr
  · simpa using hst
  · simpa using hrend
  · simpa using hleds

theorem plainLoop_slots (con coff : Nat) (leds : List Nat) :
    ∀ n : Nat, n ≤ leds.length →
      (plainLoop n con coff leds).length = leds.length ∧
      (∀ j : Nat, j < n →
        (plainLoop n con coff leds)[j]? = some (if j % 2 = 0 then con else coff)) ∧
      (∀ j : Nat, n ≤ j → (plainLoop n con coff leds)[j]? = leds[j]?) := by
  intro n
  induction n with
  | zero => intro _; simp [plainLoop]
  | succ n ih =>
    intro hn
    obtain ⟨hl, hin, hout⟩ := ih (by omega)
    have hstep : plainLoop (n + 1) con coff leds =
        (plainLoop n con coff leds).set n (if n % 2 = 0 then con else coff) := by
      simp [plainLoop, List.range_succ, List.foldl_append]
    rw [hstep]
    refine ⟨by simpa using hl, ?_, ?_⟩
    · intro j hj
      by_cases hjn : j = n
      · subst hjn
        rw [List.getElem?_set_self (by omega)]
      · rw [List.getElem?_set_ne (fun h => hjn h.symm)]
        exact hin j (by omega)
    · intro j hj
      rw [List.getElem?_set_ne (by omega)]
      exact hout j (by omega)

theorem plainLoop_eq_alternating (N con coff : Nat) (leds : List Nat)
    (hlen : leds.length = N) : plainLoop N con coff leds = alternating N con coff := by
  obtain ⟨hl, hin, _⟩ := plainLoop_slots con coff leds N (by omega)
  refine list_eq_of_slots _ _ N (by omega) (alternating_length N con coff) ?_
  intro j hj
  rw [hin j hj, alternating_slot N con coff j hj]

theorem alternating_succ (n con coff : Nat) :
    alternating (n + 1) con coff =
      alternating n con coff ++ [if n % 2 = 0 then con else coff] := by
  simp [alternating, List.range_succ]

theorem alternating_count (con coff : Nat) (hne : con ≠ coff) :
    ∀ n : Nat, (alternating n con coff).count con = (n + 1) / 2 ∧
      (alternating n con coff).count coff = n / 2 ∧
      (∀ c : Nat, c ≠ con → c ≠ coff → (alternating n con coff).count c = 0) ∧
      (∀ x ∈ alternating n con coff, x = con ∨ x = coff) := by
  intro n
  induction n with
  | zero => simp [alternating]
  | succ n ih =>
    obtain ⟨h1, h2, h3, h4⟩ := ih
    rw [alternating_succ]
    have hne' : coff ≠ con := fun h => hne h.symm
    rcases Nat.mod_two_eq_zero_or_one n with hpar | hpar
    · have hp : n % 2 = 0 := hpar
      simp only [hp, if_true, List.count_append, h1, h2]
      refine ⟨?_, ?_, ?_, ?_⟩
      · simp only [List.count_singleton_self]; omega
      · rw [List.count_singleton]
        simp only [beq_iff_eq, hne, if_false]; omega
      · intro c hc1 hc2
        rw [h3 c hc1 hc2, List.count_singleton]
        simp [Ne.symm hc1]
      · intro x hx
        rcases List.mem_append.mp hx with hx | hx
        · exact h4 x hx
        · exact Or.inl (List.mem_singleton.mp hx)
    · have hp : ¬ (n % 2 = 0) := by omega
      simp only [hp, if_false, List.count_append, h1, h2]
      refine ⟨?_, ?_, ?_, ?_⟩
      · rw [List.count_singleton]
        simp only [beq_iff_eq, hne', if_false]; omega
      · simp only [List.count_singleton_self]; omega
      · intro c hc1 hc2
        rw [h3 c hc1 hc2, List.count_singleton]
        simp [Ne.symm hc2]
      · intro x hx
        rcases List.mem_append.mp hx with hx | hx
        · exact h4 x hx
        · exact Or.inr (List.mem_singleton.mp hx)

theorem represents_postOrder_forkHeap : PostOrder forkHeap (some 0) [1, 2, 0] :=
  @PostOrder.node forkHeap 0 ⟨0, some 1, some 2⟩ [1] [2] rfl
    (@PostOrder.node forkHeap 1 ⟨2, none, none⟩ [] [] rfl PostOrder.null PostOrder.null)
    (@PostOrder.node forkHeap 2 ⟨1, none, none⟩ [] [] rfl PostOrder.null PostOrder.null)


/-- C11: if hardware initialisation returns a status `ret` different from
`WS2811_SUCCESS`, `main` returns exactly `ret`, and at that return no node has been
allocated, no frame-buffer slot has been written and nothing has been rendered; if it
returns `WS2811_SUCCESS`, no run of `main` ends in a return. -/
theorem main_init_failure_exit (W ret count : Int) (cap : Nat) (leds : List Nat)
    (ticks fuel : Nat) :
    (ret ≠ W →
      ∃ s, main W ret count cap leds ticks fuel = .exited ret s ∧
        s.mem.brk = 0 ∧ (∀ a : Nat, s.mem.cell a = none) ∧ s.root = none ∧
        s.frame.leds = leds ∧ s.frame.writes = [] ∧ s.rendered = []) ∧
    (ret = W → ∀ (code : Int) (s : Machine),
      main W ret count cap leds ticks fuel ≠ .exited code s) := by
  constructor
  · intro hne
    refine ⟨Machine.mk (Memory.fresh cap) none 0 (Frame.mk leds []) [], ?_, rfl,
      fun _ => rfl, rfl, rfl, rfl, rfl⟩
    simp only [main, ne_eq, hne, not_false_eq_true, if_true]
  · intro heq code s h
    subst heq
    simp only [main, ne_eq, not_true_eq_false, if_false] at h
    cases hb : build count (Memory.fresh cap) with
    | error e => simp [hb] at h
    | ok r =>
      obtain ⟨root, m⟩ := r
      simp only [hb] at h
      exact renderLoop_not_exited fuel ticks _ code s h

/-- Witness for C11: status `-3` against success `0`, and status `0`. -/
theorem main_init_failure_exit_witness :
    ((-3 : Int) ≠ 0 ∧ (0 : Int) = 0) ∧
    (∃ s, main 0 (-3) 45 45 [7, 7] 2 45 = .exited (-3) s ∧
      s.mem.brk = 0 ∧ (∀ a : Nat, s.mem.cell a = none) ∧ s.root = none ∧
      s.frame.leds = [7, 7] ∧ s.frame.writes = [] ∧ s.rendered = []) ∧
    (∀ (code : Int) (s : Machine), main 0 0 2 2 [7, 7] 2 2 ≠ .exited code s) :=
  ⟨⟨by decide, rfl⟩,
    (main_init_failure_exit 0 (-3) 45 45 [7, 7] 2 45).1 (by decide),
    (main_init_failure_exit 0 0 2 2 [7, 7] 2 2).2 rfl⟩

/-- C12: for every finite tree, that is a heap layout whose nodes are pairwise distinct
objects, `freeTree` returns, hands every node to `free` exactly once, each node after all
nodes of its left and of its right subtree, leaves none of them allocated and every other
object as it was; the statement `freeTree(root)` of `main` changes neither the frame
buffer nor `state` nor what has been rendered. -/
theorem freeTree_releases_each_node_once (s : Machine) (addrs : List Nat) (fuel : Nat)
    (htree : PostOrder s.mem s.root addrs) (hdistinct : addrs.Nodup)
    (hfuel : addrs.length ≤ fuel) :
    ∃ m', freeTree fuel s.mem s.root [] = .ok (m', addrs) ∧
      (∀ a ∈ addrs, addrs.count a = 1) ∧
      (∀ a ∈ addrs, m'.cell a = none) ∧
      (∀ b : Nat, b ∉ addrs → m'.cell b = s.mem.cell b) ∧
      (∀ (a : Nat) (nd : TreeNode), s.root = some a → s.mem.cell a = some nd →
        ∃ ls rs, PostOrder s.mem nd.left ls ∧ PostOrder s.mem nd.right rs ∧
          addrs = ls ++ rs ++ [a]) ∧
      (s.root = none → addrs = []) ∧
      ∃ s', releaseTree fuel s = .ok s' ∧ s'.mem = m' ∧ s'.frame = s.frame ∧
        s'.state = s.state ∧ s'.rendered = s.rendered := by
  obtain ⟨m', hf, hclr, hkeep, _, _⟩ :=
    freeTree_postOrder s.mem s.root addrs htree s.mem (fun _ _ => rfl) hdistinct fuel []
      hfuel
  simp only [List.nil_append] at hf
  refine ⟨m', hf, ?_, hclr, hkeep, ?_, ?_, ?_⟩
  · intro a ha
    exact List.count_eq_one_of_mem hdistinct ha
  · intro a nd hroot hcell
    generalize hp : s.root = p at htree hroot
    cases htree with
    | null => exact absurd hroot (by simp)
    | @node a' nd' ls rs hcell' hl hr =>
      simp only [Option.some.injEq] at hroot
      subst hroot
      rw [hcell] at hcell'
      simp only [Option.some.injEq] at hcell'
      subst hcell'
      exact ⟨ls, rs, hl, hr, rfl⟩
  · intro hroot
    generalize hp : s.root = p at htree hroot
    cases htree with
    | null => rfl
    | node _ _ _ => exact absurd hroot (by simp)
  · exact ⟨Machine.mk m' s.root s.state s.frame s.rendered, by simp only [releaseTree, hf],
      rfl, rfl, rfl, rfl⟩

/-- Witness for C12: the three nodes of a branching tree are released left child, right
child, root. -/
theorem freeTree_releases_each_node_once_witness :
    (PostOrder (Machine.mk forkHeap (some 0) 1 (Frame.mk [5, 6] []) [[5, 6]]).mem
        (Machine.mk forkHeap (some 0) 1 (Frame.mk [5, 6] []) [[5, 6]]).root [1, 2, 0] ∧
      [1, 2, 0].Nodup ∧ [1, 2, 0].length ≤ 3) ∧
    ∃ m', freeTree 3 forkHeap (some 0) [] = .ok (m', [1, 2, 0]) ∧
      (∀ a ∈ [1, 2, 0], m'.cell a = none) :=
  ⟨⟨represents_postOrder_forkHeap, by decide, by decide⟩,
    (freeTree_releases_each_node_once
      (Machine.mk forkHeap (some 0) 1 (Frame.mk [5, 6] []) [[5, 6]]) [1, 2, 0] 3
      represents_postOrder_forkHeap (by decide) (by decide)).imp
      (fun _ h => ⟨h.1, h.2.2.1⟩)⟩

/-- C13: once initialisation has succeeded the render loop has no exit.  The branch of
the loop that leads to the cleanup code is never taken, whatever the state; and in the run
of `main` every state reached after some number of ticks has a successor tick, the run
being inside the loop after any number of ticks and never at the `return 0` behind it. -/
theorem render_loop_never_exits (W : Int) (N cap fuel : Nat) (leds : List Nat)
    (ticks : Nat) (hN : 1 ≤ N) (hcap : N ≤ cap) (hfuel : N ≤ fuel)
    (hlen : leds.length = N) :
    (∀ (k g : Nat) (s : Machine),
      renderLoop (k + 1) g s =
        match loopBody g s with
        | .error e => .fault e
        | .ok s1 => renderLoop k g s1) ∧
    (∀ (k g : Nat) (s t : Machine) (code : Int), renderLoop k g s ≠ .exited code t) ∧
    (∃ s s', main W W N cap leds ticks fuel = .running s ∧ loopBody fuel s = .ok s' ∧
      main W W N cap leds (ticks + 1) fuel = .running s') ∧
    (∀ (code : Int) (t : Machine), main W W N cap leds ticks fuel ≠ .exited code t) := by
  obtain ⟨m, s, hb, hlo, hmain, hmem, hroot, hl, hst, _, _⟩ :=
    main_running W N cap fuel leds ticks hN hcap hfuel hlen
  refine ⟨fun k g s => renderLoop_succ g k s,
    fun k g s t code => renderLoop_not_exited g k s code t, ?_, ?_⟩
  · obtain ⟨s', hbody, _⟩ := loopBody_chain m N hN hlo fuel hfuel s ticks hmem hroot hl hst
    refine ⟨s, s', hmain, hbody, ?_⟩
    have hr : renderLoop ticks fuel (Machine.mk m (some 0) 0 (Frame.mk leds []) []) =
        .running s := by
      simpa only [main, ne_eq, not_true_eq_false, if_false, hb] using hmain
    have hnext := renderLoop_one_more fuel ticks _ s hr
    simp only [hbody] at hnext
    simp only [main, ne_eq, not_true_eq_false, if_false, hb]
    exact hnext
  · intro code t h
    rw [hmain] at h
    exact absurd h (by simp)

/-- Witness for C13 at `N = 3` after two ticks. -/
theorem render_loop_never_exits_witness :
    (1 ≤ 3 ∧ 3 ≤ 3 ∧ 3 ≤ 3 ∧ [9, 9, 9].length = 3) ∧
    ∃ s s', main 0 0 ((3 : Nat) : Int) 3 [9, 9, 9] 2 3 = .running s ∧
      loopBody 3 s = .ok s' ∧
      main 0 0 ((3 : Nat) : Int) 3 [9, 9, 9] (2 + 1) 3 = .running s' :=
  ⟨⟨by decide, by decide, by decide, rfl⟩,
    (render_loop_never_exits 0 3 3 3 [9, 9, 9] 2 (by decide) (by decide) (by decide)
      rfl).2.2.1⟩


/-- C14: for every `N ≥ 1` the indices `traverseTree` stores to on the built tree are, in
this order, `0, 1, ..., N-1`: the traversal of the tree is the traversal of a linear
chain of indices. -/
theorem traverse_built_visits_ascending (N cap fuel con coff : Nat) (f : Frame)
    (hN : 1 ≤ N) (hcap : N ≤ cap) (hfuel : N ≤ fuel) (hlen : f.leds.length = N) :
    ∃ root m f', build N (Memory.fresh cap) = .ok (root, m) ∧
      traverseTree fuel m root con coff f = .ok f' ∧
      f'.writes = f.writes ++ (List.range N).map (fun i : Nat => (i : Int)) := by
  obtain ⟨m, hb, _, _, hlo, _⟩ := build_chain N cap hN hcap
  obtain ⟨f', ht, _, hw, _, _⟩ :=
    traverseTree_chain m N hN hlo con coff fuel hfuel f (by omega)
  refine ⟨some 0, m, f', hb, ht, ?_⟩
  rw [hw, List.range_eq_range']

/-- Witness for C14 at `N = 4`: the log of stores is `0, 1, 2, 3`. -/
theorem traverse_built_visits_ascending_witness :
    (1 ≤ 4 ∧ 4 ≤ 6 ∧ 4 ≤ 4 ∧ (Frame.mk [8, 8, 8, 8] []).leds.length = 4) ∧
    ∃ root m f', build ((4 : Nat) : Int) (Memory.fresh 6) = .ok (root, m) ∧
      traverseTree 4 m root 1 2 (Frame.mk [8, 8, 8, 8] []) = .ok f' ∧
      f'.writes = (Frame.mk [8, 8, 8, 8] []).writes ++
        (List.range 4).map (fun i : Nat => (i : Int)) :=
  ⟨⟨by decide, by decide, by decide, rfl⟩,
    traverse_built_visits_ascending 4 6 4 1 2 (Frame.mk [8, 8, 8, 8] [])
      (by decide) (by decide) (by decide) rfl⟩

/-- C15: the tree-shaped traversal is the plain ordered loop.  For every `N ≥ 1`, all
colours and every frame buffer of length `N`, `traverseTree` on the built tree returns
the frame buffer that the loop `for i = 0 .. N-1: leds[i] = (i % 2 == 0 ? color_on :
color_off)` produces from the same buffer. -/
theorem traverse_built_refines_plainLoop (N cap fuel con coff : Nat) (f : Frame)
    (hN : 1 ≤ N) (hcap : N ≤ cap) (hfuel : N ≤ fuel) (hlen : f.leds.length = N) :
    ∃ root m f', build N (Memory.fresh cap) = .ok (root, m) ∧
      traverseTree fuel m root con coff f = .ok f' ∧
      f'.leds = plainLoop N con coff f.leds := by
  obtain ⟨m, hb, _, _, hlo, _⟩ := build_chain N cap hN hcap
  obtain ⟨f', ht, hleds, _⟩ :=
    traverseTree_chain_leds m N hN hlo con coff fuel hfuel f hlen
  refine ⟨some 0, m, f', hb, ht, ?_⟩
  rw [hleds, plainLoop_eq_alternating N con coff f.leds hlen]

/-- Witness for C15 at `N = 3`. -/
theorem traverse_built_refines_plainLoop_witness :
    (1 ≤ 3 ∧ 3 ≤ 3 ∧ 3 ≤ 3 ∧ (Frame.mk [8, 8, 8] []).leds.length = 3) ∧
    ∃ root m f', build ((3 : Nat) : Int) (Memory.fresh 3) = .ok (root, m) ∧
      traverseTree 3 m root 1 2 (Frame.mk [8, 8, 8] []) = .ok f' ∧
      f'.leds = plainLoop 3 1 2 (Frame.mk [8, 8, 8] []).leds :=
  ⟨⟨by decide, by decide, by decide, rfl⟩,
    traverse_built_refines_plainLoop 3 3 3 1 2 (Frame.mk [8, 8, 8] [])
      (by decide) (by decide) (by decide) rfl⟩

/-- C16: starting from `state = 0`, the `k`-th tick of the render loop (`k ≥ 1`) renders
the on-phase frame when `k` is odd and the off-phase frame when `k` is even; the first
rendered frame is the on-phase frame, and the frame rendered at tick `k + 2` is the frame
rendered at tick `k`.  The on-phase frame is green at even and black at odd indices, the
off-phase frame black at even and red at odd indices. -/
theorem kth_tick_renders_its_phase (W : Int) (N cap fuel : Nat) (leds : List Nat)
    (ticks : Nat) (hN : 1 ≤ N) (hcap : N ≤ cap) (hfuel : N ≤ fuel)
    (hlen : leds.length = N) :
    ∃ s, main W W N cap leds ticks fuel = .running s ∧ s.rendered.length = ticks ∧
      (∀ k : Nat, 1 ≤ k → k ≤ ticks → k % 2 = 1 → s.rendered[k - 1]? = some (onFrame N)) ∧
      (∀ k : Nat, 1 ≤ k → k ≤ ticks → k % 2 = 0 → s.rendered[k - 1]? = some (offFrame N)) ∧
      (1 ≤ ticks → s.rendered[0]? = some (onFrame N)) ∧
      (∀ k : Nat, 1 ≤ k → k + 2 ≤ ticks → s.rendered[k + 2 - 1]? = s.rendered[k - 1]?) ∧
      (onFrame N).length = N ∧ (offFrame N).length = N ∧
      (∀ i : Nat, i < N →
        (onFrame N)[i]? = some (if i % 2 = 0 then 0x00FF00 else 0x000000)) ∧
      (∀ i : Nat, i < N →
        (offFrame N)[i]? = some (if i % 2 = 0 then 0x000000 else 0xFF0000)) := by
  obtain ⟨m, s, _, _, hmain, _, _, _, _, hrend, _⟩ :=
    main_running W N cap fuel leds ticks hN hcap hfuel hlen
  have hslot : ∀ k : Nat, 1 ≤ k → k ≤ ticks →
      s.rendered[k - 1]? = some (if k % 2 = 1 then onFrame N else offFrame N) := by
    intro k hk1 hk2
    have hidx : k - 1 < ticks := by omega
    have hk : k - 1 + 1 = k := by omega
    rw [hrend, List.getElem?_map, List.getElem?_range hidx]
    simp only [Option.map_some', hk]
  refine ⟨s, hmain, by rw [hrend]; simp, ?_, ?_, ?_, ?_, alternating_length _ _ _,
    alternating_length _ _ _, fun i hi => alternating_slot N _ _ i hi,
    fun i hi => alternating_slot N _ _ i hi⟩
  · intro k hk1 hk2 hodd
    rw [hslot k hk1 hk2, if_pos hodd]
  · intro k hk1 hk2 heven
    have hne : ¬ (k % 2 = 1) := by omega
    rw [hslot k hk1 hk2, if_neg hne]
  · intro h1
    have := hslot 1 (le_refl 1) h1
    simpa using this
  · intro k hk1 hk2
    rw [hslot (k + 2) (by omega) hk2, hslot k hk1 (by omega)]
    have hpar : (k + 2) % 2 = k % 2 := by omega
    rw [hpar]

/-- Witness for C16 at `N = 3` after four ticks. -/
theorem kth_tick_renders_its_phase_witness :
    (1 ≤ 3 ∧ 3 ≤ 3 ∧ 3 ≤ 3 ∧ [9, 9, 9].length = 3) ∧
    ∃ s, main 0 0 ((3 : Nat) : Int) 3 [9, 9, 9] 4 3 = .running s ∧ s.rendered.length = 4 ∧
      (∀ k : Nat, 1 ≤ k → k ≤ 4 → k % 2 = 1 → s.rendered[k - 1]? = some (onFrame 3)) :=
  ⟨⟨by decide, by decide, by decide, rfl⟩,
    (kth_tick_renders_its_phase 0 3 3 3 [9, 9, 9] 4 (by decide) (by decide) (by decide)
      rfl).imp (fun _ h => ⟨h.1, h.2.1, h.2.2.1⟩)⟩

/-- C17: in every rendered frame exactly one parity class is lit.  For every `N ≥ 1` the
frame left by an on-phase tick holds exactly `ceil(N/2)` green pixels, no red pixel and
`floor(N/2)` black ones; the frame left by an off-phase tick holds exactly `floor(N/2)`
red pixels, no green pixel and `ceil(N/2)` black ones; no other colour occurs.  For
`N = 45` these are 23 green and 22 red pixels. -/
theorem phase_frame_pixel_counts (N cap fuel : Nat) (f : Frame)
    (hN : 1 ≤ N) (hcap : N ≤ cap) (hfuel : N ≤ fuel) (hlen : f.leds.length = N) :
    ∃ root m fon foff, build N (Memory.fresh cap) = .ok (root, m) ∧
      tick fuel m root 0 f = .ok (1, fon) ∧ tick fuel m root 1 f = .ok (0, foff) ∧
      fon.leds.count 0x00FF00 = (N + 1) / 2 ∧ fon.leds.count 0xFF0000 = 0 ∧
      fon.leds.count 0x000000 = N / 2 ∧
      (∀ x ∈ fon.leds, x = 0x00FF00 ∨ x = 0x000000) ∧
      foff.leds.count 0xFF0000 = N / 2 ∧ foff.leds.count 0x00FF00 = 0 ∧
      foff.leds.count 0x000000 = (N + 1) / 2 ∧
      (∀ x ∈ foff.leds, x = 0x000000 ∨ x = 0xFF0000) ∧
      (N = 45 → fon.leds.count 0x00FF00 = 23 ∧ foff.leds.count 0xFF0000 = 22) := by
  obtain ⟨m, hb, _, _, hlo, _⟩ := build_chain N cap hN hcap
  obtain ⟨fon, hton, hlon, _⟩ :=
    traverseTree_chain_leds m N hN hlo 0x00ff00 0x000000 fuel hfuel f hlen
  obtain ⟨foff, htoff, hloff, _⟩ :=
    traverseTree_chain_leds m N hN hlo 0x000000 0xff0000 fuel hfuel f hlen
  obtain ⟨g1, g2, g3, g4⟩ := alternating_count 0x00ff00 0x000000 (by decide) N
  obtain ⟨r1, r2, r3, r4⟩ := alternating_count 0x000000 0xff0000 (by decide) N
  refine ⟨some 0, m, fon, foff, hb, ?_, ?_, ?_, ?_, ?_, ?_, ?_, ?_, ?_, ?_, ?_⟩
  · simp [tick, lnot, hton]
  · simp [tick, lnot, htoff]
  · rw [hlon]; exact g1
  · rw [hlon]; exact g3 0xFF0000 (by decide) (by decide)
  · rw [hlon]; exact g2
  · rw [hlon]; exact g4
  · rw [hloff]; exact r2
  · rw [hloff]; exact r3 0x00FF00 (by decide) (by decide)
  · rw [hloff]; exact r1
  · rw [hloff]; exact r4
  · intro h45
    subst h45
    rw [hlon, hloff]
    exact ⟨g1, r2⟩

/-- Witness for C17 at `N = 45`, the configured `LED_COUNT`. -/
theorem phase_frame_pixel_counts_witness :
    (1 ≤ 45 ∧ 45 ≤ 45 ∧ 45 ≤ 45 ∧ (Frame.mk (List.replicate 45 0) []).leds.length = 45) ∧
    ∃ root m fon foff, build ((45 : Nat) : Int) (Memory.fresh 45) = .ok (root, m) ∧
      tick 45 m root 0 (Frame.mk (List.replicate 45 0) []) = .ok (1, fon) ∧
      tick 45 m root 1 (Frame.mk (List.replicate 45 0) []) = .ok (0, foff) ∧
      fon.leds.count 0x00FF00 = 23 ∧ foff.leds.count 0xFF0000 = 22 :=
  ⟨⟨by decide, by decide, by decide, by simp⟩,
    (phase_frame_pixel_counts 45 45 45 (Frame.mk (List.replicate 45 0) [])
      (by decide) (by decide) (by decide) (by simp)).imp
      (fun _ h => h.imp (fun _ h => h.imp (fun _ h => h.imp (fun _ h =>
        ⟨h.1, h.2.1, h.2.2.1, (h.2.2.2.2.2.2.2.2.2.2.2 rfl).1,
          (h.2.2.2.2.2.2.2.2.2.2.2 rfl).2⟩))))⟩

/-- C18: for every finite tree whose indices all lie inside the frame buffer,
`traverseTree` returns and changes only the slots whose index occurs in the tree: every
other slot keeps its value, every slot whose index occurs gets `color_on` if the index is
even and `color_off` if it is odd, also when the index occurs in several nodes.  The heap
is no output of `traverseTree`, which stores to no node: the same tree is laid out
after the call, and a tick of `main` leaves heap and root as they were. -/
theorem traverseTree_changes_only_tree_slots (m : Memory) (p : Option Nat) (t : Tree)
    (con coff fuel : Nat) (f : Frame) (h : Represents m p t) (hfuel : t.height ≤ fuel)
    (hin : ∀ i ∈ t.preorder, 0 ≤ i ∧ i < f.leds.length) :
    ∃ f', traverseTree fuel m p con coff f = .ok f' ∧
      f'.leds.length = f.leds.length ∧
      (∀ j : Nat, (j : Int) ∉ t.preorder → f'.leds[j]? = f.leds[j]?) ∧
      (∀ j : Nat, (j : Int) ∈ t.preorder →
        f'.leds[j]? = some (if j % 2 = 0 then con else coff)) ∧
      Represents m p t ∧
      (∀ s s' : Machine, s.mem = m → s.root = p → loopBody fuel s = .ok s' →
        s'.mem = m ∧ s'.root = p) := by
  have heq := traverseTree_eq_paint m con coff p t h fuel f hfuel
  obtain ⟨f', hp, hl, _, hinside, houtside⟩ := paint_of_inBounds con coff t.preorder f hin
  refine ⟨f', heq.trans hp, hl, houtside, ?_, h, ?_⟩
  · intro j hj
    rw [hinside j hj, colorOf_natCast]
  · intro s s' hmem hroot hbody
    simp only [loopBody] at hbody
    split at hbody
    · exact absurd hbody (by simp)
    · simp only [Except.ok.injEq] at hbody
      subst hbody
      exact ⟨hmem, hroot⟩

/-- Witness for C18: the branching tree over a buffer of four slots; slot `3` keeps its
value. -/
theorem traverseTree_changes_only_tree_slots_witness :
    (Represents forkHeap (some 0) forkTree ∧ forkTree.height ≤ 2 ∧
      ∀ i ∈ forkTree.preorder, 0 ≤ i ∧ i < ((Frame.mk [9, 9, 9, 9] []).leds.length : Int)) ∧
    ∃ f', traverseTree 2 forkHeap (some 0) 5 6 (Frame.mk [9, 9, 9, 9] []) = .ok f' ∧
      f'.leds.length = (Frame.mk [9, 9, 9, 9] []).leds.length ∧
      (∀ j : Nat, (j : Int) ∉ forkTree.preorder →
        f'.leds[j]? = (Frame.mk [9, 9, 9, 9] []).leds[j]?) ∧
      (∀ j : Nat, (j : Int) ∈ forkTree.preorder →
        f'.leds[j]? = some (if j % 2 = 0 then 5 else 6)) :=
  ⟨⟨represents_forkHeap, by decide, by decide⟩,
    (traverseTree_changes_only_tree_slots forkHeap (some 0) forkTree 5 6 2
      (Frame.mk [9, 9, 9, 9] []) represents_forkHeap (by decide) (by decide)).imp
      (fun _ h => ⟨h.1, h.2.1, h.2.2.1, h.2.2.2.1⟩)⟩


end LedEvenOrOdd
